import Mathlib

/-!
Verification of the AlgoAuth threshold key-custody core.

This file shallowly embeds the crypto core of the AlgoAuth repository:

* the GF(256) engine, Shamir secret splitting and Lagrange reconstruction
  from AlgoAuth-frontend/vite.config.ts (Shamir section);
* the AES-256-GCM payload cipher wrapper (encryptAES / decryptAES);
* the NaCl box share-encapsulation wrappers
  (encryptForRecipient / decryptFromSender);
* the key-release, proxy re-encryption and share-sealing endpoint logic of
  the backend server.

Machine integers (JS Uint8Array bytes and number values) are embedded as
Nat with explicit bounds where they matter; fallible operations (JS throw)
are embedded as Except String with the source's error message strings.
External cryptographic primitives (tweetnacl box, WebCrypto AES-GCM) are
not part of the repository; they are modelled symbolically from the spec,
each such definition carries a doc comment saying so.
-/

set_option maxRecDepth 40000

namespace AlgoAuth

/-! ## Source embedding: GF(256) engine (vite.config.ts, initTables/gfMul/gfDiv)

The source computes two lookup tables by iterating
x := x XOR (x << 1); if (x >= 256) x ^= 0x11B
starting from x = 1: EXP_TABLE[i] is the value of x after i steps
(i = 0..254; EXP_TABLE[255] is set to EXP_TABLE[0] but is never read,
since the code only indexes EXP_TABLE at values reduced mod 255), and
LOG_TABLE[x] = i for x = EXP_TABLE[i] (LOG_TABLE[0] keeps its initial
value 0, and is never read because gfMul/gfDiv test for zero operands
first). -/

/-- One update step of initTables: multiplication by the generator 0x03. -/
def expStep (x : Nat) : Nat :=
  let y := x ^^^ (x <<< 1)
  if y ≥ 256 then y ^^^ 0x11B else y

/-- EXP_TABLE[i] for i in 0..254. -/
def expT : Nat → Nat
  | 0 => 1
  | n + 1 => expStep (expT n)

/-- LOG_TABLE[x]: the first (in fact only) i in 0..254 with EXP_TABLE[i] = x,
and the initial value 0 for x outside the table range. -/
def logT (x : Nat) : Nat :=
  (((List.range 255).find? fun i => expT i == x).getD 0)

/-- gfMul from the source: 0 if either operand is 0, else
EXP_TABLE[(LOG_TABLE[a] + LOG_TABLE[b]) % 255]. -/
def gfMul (a b : Nat) : Nat :=
  if a = 0 ∨ b = 0 then 0
  else expT ((logT a + logT b) % 255)

/-- gfDiv from the source.  The source computes
LOG_TABLE[a] - LOG_TABLE[b] + 255 in JS (signed) number arithmetic, which
equals logT a + 255 - logT b in Nat arithmetic because logT b ≤ 255. -/
def gfDiv (a b : Nat) : Except String Nat :=
  if b = 0 then .error "Division by zero in GF(256)"
  else if a = 0 then .ok 0
  else .ok (expT ((logT a + 255 - logT b) % 255))

/-- The multiplicative inverse induced by gfDiv: gfDiv 1 b computes
EXP_TABLE[(0 + 255 - LOG_TABLE[b]) % 255]; this is the function used for
the Inv instance of the field built below. -/
def gfInv (a : Nat) : Nat :=
  if a = 0 then 0 else expT ((255 - logT a) % 255)

/-! ## Source embedding: Shamir split / reconstruct (vite.config.ts) -/

/-- evaluatePolynomial from the source: Horner evaluation from the highest
coefficient down, result = gfMul(result, x) XOR coefficients[i]. -/
def evaluatePolynomial (coefficients : List Nat) (x : Nat) : Nat :=
  coefficients.foldr (fun c result => gfMul result x ^^^ c) 0

/-- The per-byte coefficient array built by splitSecret:
coefficients[0] = secret[byteIdx], coefficients[1..k-1] random bytes.
The randomness source (crypto.getRandomValues) is a parameter rnd, with
rnd byteIdx j the random byte drawn for coefficient j of byte position
byteIdx. -/
def coefficientsFor (secret : List Nat) (k : Nat) (rnd : Nat → Nat → Nat)
    (byteIdx : Nat) : List Nat :=
  secret.getD byteIdx 0 :: ((List.range (k - 1)).map fun t => rnd byteIdx (t + 1))

/-- splitSecret from the source.  The source allocates n share buffers of
length len(secret)+1 with byte 0 = i+1 and then fills byte byteIdx+1 of
share i with the evaluation at x = i+1, looping byte-major; the result is
transcribed here share-major, with identical contents. -/
def splitSecret (secret : List Nat) (n k : Nat) (rnd : Nat → Nat → Nat) :
    Except String (List (List Nat)) :=
  if k > n then .error "Threshold must be <= number of shares"
  else if k < 2 then .error "Threshold must be >= 2"
  else if n > 255 then .error "Max 255 shares"
  else .ok ((List.range n).map fun i =>
    (i + 1) :: ((List.range secret.length).map fun byteIdx =>
      evaluatePolynomial (coefficientsFor secret k rnd byteIdx) (i + 1)))

/-- Sequential fold which aborts at the first error, mirroring a JS loop
whose body can throw. -/
def foldlExcept (f : Nat → Nat → Except String Nat) : Nat → List Nat → Except String Nat
  | acc, [] => .ok acc
  | acc, i :: rest =>
    match f acc i with
    | .error e => .error e
    | .ok acc' => foldlExcept f acc' rest

/-- Sequential map which aborts at the first error, mirroring a JS loop
whose body can throw. -/
def mapExcept (f : Nat → Except String Nat) : List Nat → Except String (List Nat)
  | [] => .ok []
  | b :: rest =>
    match f b with
    | .error e => .error e
    | .ok v =>
      match mapExcept f rest with
      | .error e => .error e
      | .ok vs => .ok (v :: vs)

/-- The numerator accumulator of reconstructSecret's inner loop:
for j ≠ i, numerator = gfMul(numerator, xs[j]), starting from 1. -/
def shamirNumerator (xs : List Nat) (i : Nat) : Nat :=
  ((List.range xs.length).filter fun j => i ≠ j).foldl
    (fun acc j => gfMul acc (xs.getD j 0)) 1

/-- The denominator accumulator of reconstructSecret's inner loop:
for j ≠ i, denominator = gfMul(denominator, xs[i] XOR xs[j]), starting from 1. -/
def shamirDenominator (xs : List Nat) (i : Nat) : Nat :=
  ((List.range xs.length).filter fun j => i ≠ j).foldl
    (fun acc j => gfMul acc (xs.getD i 0 ^^^ xs.getD j 0)) 1

/-- One byte position of reconstructSecret: XOR-accumulate
gfMul(shares[i][byteIdx+1], gfDiv(numerator, denominator)) over all i;
gfDiv can throw. -/
def reconstructByte (shares : List (List Nat)) (xs : List Nat) (byteIdx : Nat) :
    Except String Nat :=
  foldlExcept
    (fun result i =>
      match gfDiv (shamirNumerator xs i) (shamirDenominator xs i) with
      | .error e => .error e
      | .ok lagrangeCoeff =>
        .ok (result ^^^ gfMul ((shares.getD i []).getD (byteIdx + 1) 0) lagrangeCoeff))
    0 (List.range shares.length)

/-- reconstructSecret from the source: Lagrange interpolation at x = 0,
one byte position at a time. -/
def reconstructSecret (shares : List (List Nat)) : Except String (List Nat) :=
  if shares.length < 2 then .error "Need at least 2 shares"
  else
    mapExcept
      (reconstructByte shares (shares.map fun s => s.getD 0 0))
      (List.range ((shares.getD 0 []).length - 1))

/-! ## Spec-side definitions for the field GF(2^8) = GF(2)[x] / (x^8+x^4+x^3+x+1)

These definitions follow the spec's description of the field ("the
carry-less polynomial product of a and b reduced modulo 0x11B"); they are
compared with the table-driven source functions in the claim theorems. -/

/-- Carry-less (GF(2)-polynomial) product of two bytes: XOR of the shifted
copies of a selected by the bits of b; fuel 8 processes the 8 bits of b. -/
def pmulAux : Nat → Nat → Nat → Nat
  | 0, _, _ => 0
  | f + 1, a, b => (if b % 2 = 1 then a else 0) ^^^ pmulAux f (a <<< 1) (b / 2)

/-- Carry-less product of two bytes (a bit vector of degree < 15). -/
def pmul (a b : Nat) : Nat := pmulAux 8 a b

/-- Reduction of a bit-vector polynomial of degree < 16 modulo
x^8+x^4+x^3+x+1 (0x11B): clear bits 15 down to 8 by XORing shifted copies
of 0x11B. -/
def polyModAux : Nat → Nat → Nat
  | 0, v => v
  | k + 1, v => polyModAux k (if v.testBit (8 + k) then v ^^^ (0x11B <<< k) else v)

/-- Modular reduction of a carry-less product. -/
def polyMod (v : Nat) : Nat := polyModAux 8 v

/-- The spec's multiplication: carry-less product reduced modulo 0x11B. -/
def polyMulMod (a b : Nat) : Nat := polyMod (pmul a b)

/-- Bit i of n, as an element of GF(2). -/
def bitc (n i : Nat) : ZMod 2 := if n.testBit i then 1 else 0

/-- The polynomial over GF(2) whose coefficients are the low 16 bits of n. -/
noncomputable def toPoly (n : Nat) : Polynomial (ZMod 2) :=
  ∑ i ∈ Finset.range 16, Polynomial.C (bitc n i) * Polynomial.X ^ i

/-- The AES/Rijndael irreducible polynomial x^8+x^4+x^3+x+1, i.e. 0x11B. -/
noncomputable def gfPoly : Polynomial (ZMod 2) :=
  Polynomial.X ^ 8 + Polynomial.X ^ 4 + Polynomial.X ^ 3 + Polynomial.X + 1

/-! ## GF(256) table theory -/

theorem expStep_lt_fin : ∀ x : Fin 256, expStep x.val < 256 := by decide

theorem expStep_ne_zero_fin : ∀ x : Fin 256, x.val ≠ 0 → expStep x.val ≠ 0 := by decide

theorem expT_nodup : ((List.range 255).map expT).Nodup := by decide

theorem expT_255 : expT 255 = 1 := by decide

theorem logT_one : logT 1 = 0 := by decide

theorem expStep_zero : expStep 0 = 0 := rfl

theorem expStep_lt {x : Nat} (h : x < 256) : expStep x < 256 :=
  expStep_lt_fin ⟨x, h⟩

theorem expStep_ne_zero {x : Nat} (h : x < 256) (h0 : x ≠ 0) : expStep x ≠ 0 :=
  expStep_ne_zero_fin ⟨x, h⟩ h0

theorem expT_zero_eq : expT 0 = 1 := rfl

theorem expT_bounds : ∀ n, expT n < 256 ∧ expT n ≠ 0 := by
  intro n
  induction n with
  | zero => exact ⟨by norm_num [expT], by norm_num [expT]⟩
  | succ n ih => exact ⟨expStep_lt ih.1, expStep_ne_zero ih.1 ih.2⟩

theorem expT_lt (n : Nat) : expT n < 256 := (expT_bounds n).1

theorem expT_ne_zero (n : Nat) : expT n ≠ 0 := (expT_bounds n).2

theorem expT_inj {i j : Nat} (hi : i < 255) (hj : j < 255) (h : expT i = expT j) : i = j := by
  have hlen : ((List.range 255).map expT).length = 255 := by simp
  have h1 : ((List.range 255).map expT).get ⟨i, by omega⟩ = expT i := by simp
  have h2 : ((List.range 255).map expT).get ⟨j, by omega⟩ = expT j := by simp
  have h3 : (⟨i, by simp; omega⟩ : Fin ((List.range 255).map expT).length)
      = ⟨j, by simp; omega⟩ :=
    (List.Nodup.get_inj_iff expT_nodup).mp (by rw [h1, h2]; exact h)
  exact congrArg Fin.val h3

/-- find? over range' returns the first index satisfying the predicate. -/
theorem find?_range'_eq_some {p : Nat → Bool} :
    ∀ (n s i : Nat), s ≤ i → i < s + n → p i = true →
      (∀ j, s ≤ j → j < i → p j = false) →
      (List.range' s n).find? p = some i := by
  intro n
  induction n with
  | zero => intro s i h1 h2; omega
  | succ n ih =>
    intro s i h1 h2 hp hmin
    rw [List.range'_succ]
    by_cases hs : i = s
    · subst hs
      exact List.find?_cons_of_pos _ hp
    · have hps : p s = false := hmin s le_rfl (by omega)
      rw [List.find?_cons_of_neg _ (by simp [hps])]
      exact ih (s + 1) i (by omega) (by omega) hp fun j hj1 hj2 => hmin j (by omega) hj2

theorem logT_expT {i : Nat} (hi : i < 255) : logT (expT i) = i := by
  unfold logT
  rw [List.range_eq_range',
    find?_range'_eq_some 255 0 i (Nat.zero_le i) (by omega) (by simp)
      (fun j _ hj => by
        simp only [beq_eq_false_iff_ne, ne_eq]
        exact fun hc => absurd (expT_inj (by omega) hi hc) (by omega))]
  rfl

theorem expT_surj {x : Nat} (hx : x < 256) (hx0 : x ≠ 0) : ∃ i, i < 255 ∧ expT i = x := by
  classical
  have himg : (Finset.range 255).image expT ⊆ (Finset.range 256).erase 0 := by
    intro y hy
    obtain ⟨i, _, rfl⟩ := Finset.mem_image.mp hy
    exact Finset.mem_erase.mpr ⟨expT_ne_zero i, Finset.mem_range.mpr (expT_lt i)⟩
  have hcard : ((Finset.range 255).image expT).card = 255 := by
    rw [Finset.card_image_of_injOn fun i hi j hj h =>
      expT_inj (Finset.mem_range.mp hi) (Finset.mem_range.mp hj) h]
    simp
  have hcard2 : ((Finset.range 256).erase 0).card = 255 := by
    rw [Finset.card_erase_of_mem (by simp)]
    simp
  have heq : (Finset.range 255).image expT = (Finset.range 256).erase 0 :=
    Finset.eq_of_subset_of_card_le himg (by omega)
  have : x ∈ (Finset.range 255).image expT := by
    rw [heq]
    exact Finset.mem_erase.mpr ⟨hx0, Finset.mem_range.mpr hx⟩
  obtain ⟨i, hi, hix⟩ := Finset.mem_image.mp this
  exact ⟨i, Finset.mem_range.mp hi, hix⟩

theorem expT_logT {x : Nat} (hx : x < 256) (hx0 : x ≠ 0) : expT (logT x) = x := by
  obtain ⟨i, hi, rfl⟩ := expT_surj hx hx0
  rw [logT_expT hi]

theorem logT_lt {x : Nat} (hx : x < 256) (hx0 : x ≠ 0) : logT x < 255 := by
  obtain ⟨i, hi, rfl⟩ := expT_surj hx hx0
  rw [logT_expT hi]
  exact hi

theorem expT_eq_iterate (n : Nat) : expT n = expStep^[n] 1 := by
  induction n with
  | zero => rfl
  | succ n ih => rw [Function.iterate_succ_apply', ← ih]; rfl

theorem expT_add (m n : Nat) : expT (m + n) = expStep^[m] (expT n) := by
  rw [expT_eq_iterate, expT_eq_iterate, Function.iterate_add_apply]

theorem expStep_iterate_255 {x : Nat} (hx : x < 256) : expStep^[255] x = x := by
  by_cases hx0 : x = 0
  · subst hx0
    exact Function.iterate_fixed expStep_zero 255
  · obtain ⟨i, _, rfl⟩ := expT_surj hx hx0
    have : expStep^[255] (expT i) = expT (255 + i) := (expT_add 255 i).symm
    rw [this, Nat.add_comm, expT_add i 255, expT_255, ← expT_zero_eq,
      ← expT_add, Nat.add_zero]

theorem expT_mod (n : Nat) : expT (n % 255) = expT n := by
  conv_rhs => rw [← Nat.div_add_mod n 255]
  rw [expT_add, Function.iterate_mul,
    Function.iterate_fixed (expStep_iterate_255 (expT_lt _)) (n / 255)]

theorem gfMul_lt (a b : Nat) : gfMul a b < 256 := by
  unfold gfMul
  split
  · omega
  · exact expT_lt _

theorem gfMul_ne_zero {a b : Nat} (ha : a ≠ 0) (hb : b ≠ 0) : gfMul a b ≠ 0 := by
  unfold gfMul
  rw [if_neg (by tauto)]
  exact expT_ne_zero _

theorem gfMul_zero_left (b : Nat) : gfMul 0 b = 0 := by simp [gfMul]

theorem gfMul_zero_right (a : Nat) : gfMul a 0 = 0 := by simp [gfMul]

theorem gfMul_eq_zero_iff {a b : Nat} : gfMul a b = 0 ↔ a = 0 ∨ b = 0 := by
  constructor
  · intro h
    by_contra hc
    push_neg at hc
    exact gfMul_ne_zero hc.1 hc.2 h
  · rintro (rfl | rfl)
    · exact gfMul_zero_left b
    · exact gfMul_zero_right a

theorem gfMul_comm (a b : Nat) : gfMul a b = gfMul b a := by
  unfold gfMul
  rw [Nat.add_comm (logT a)]
  by_cases ha : a = 0 <;> by_cases hb : b = 0 <;> simp [ha, hb]

/-- The bridge lemma: multiplying a nonzero byte a by b is iterating the
generator step logT a times starting from b. -/
theorem gfMul_eq_iterate {a b : Nat} (ha0 : a ≠ 0) (hb : b < 256) :
    gfMul a b = expStep^[logT a] b := by
  by_cases hb0 : b = 0
  · subst hb0
    rw [gfMul_zero_right, Function.iterate_fixed expStep_zero]
  · unfold gfMul
    rw [if_neg (by tauto), expT_mod, expT_add, expT_logT hb hb0]

/-! ## toPoly: bytes as polynomials over GF(2) -/

open Polynomial in
theorem bitc_xor (v w i : Nat) : bitc (v ^^^ w) i = bitc v i + bitc w i := by
  unfold bitc
  rw [Nat.testBit_xor]
  cases hv : v.testBit i <;> cases hw : w.testBit i <;> decide

open Polynomial in
theorem toPoly_xor (v w : Nat) : toPoly (v ^^^ w) = toPoly v + toPoly w := by
  unfold toPoly
  rw [← Finset.sum_add_distrib]
  refine Finset.sum_congr rfl fun i _ => ?_
  rw [bitc_xor, map_add, add_mul]

theorem toPoly_zero_val : toPoly 0 = 0 := by
  simp [toPoly, bitc]

theorem bitc_one (i : Nat) : bitc 1 i = if i = 0 then 1 else 0 := by
  unfold bitc
  cases i with
  | zero => rfl
  | succ n =>
    rw [Nat.testBit_lt_two_pow]
    · simp
    · have : 2 ≤ 2 ^ (n + 1) := Nat.le_self_pow (by omega) 2
      omega

open Polynomial in
theorem toPoly_one_val : toPoly 1 = 1 := by
  unfold toPoly
  simp [bitc_one, apply_ite Polynomial.C, ite_mul, Finset.sum_ite_eq']

open Polynomial in
theorem toPoly_coeff (v i : Nat) (hi : i < 16) : (toPoly v).coeff i = bitc v i := by
  unfold toPoly
  rw [Polynomial.finset_sum_coeff]
  simp only [Polynomial.coeff_C_mul, Polynomial.coeff_X_pow, mul_ite, mul_one, mul_zero]
  rw [Finset.sum_ite_eq (Finset.range 16) i (fun j => bitc v j)]
  simp [Finset.mem_range.mpr hi]

theorem toPoly_inj {u w : Nat} (hu : u < 65536) (hw : w < 65536)
    (h : toPoly u = toPoly w) : u = w := by
  refine Nat.eq_of_testBit_eq fun i => ?_
  by_cases hi : i < 16
  · have hc := congrArg (fun p => Polynomial.coeff p i) h
    simp only [toPoly_coeff _ _ hi] at hc
    unfold bitc at hc
    cases hcu : u.testBit i <;> cases hcw : w.testBit i <;>
      simp [hcu, hcw] at hc ⊢
  · have h16 : (65536 : Nat) ≤ 2 ^ i := by
      calc (65536 : Nat) = 2 ^ 16 := by norm_num
      _ ≤ 2 ^ i := Nat.pow_le_pow_right (by omega) (by omega)
    rw [Nat.testBit_lt_two_pow (by omega), Nat.testBit_lt_two_pow (by omega)]

open Polynomial in
theorem toPoly_shiftLeft {v : Nat} (h : v < 32768) :
    toPoly (v <<< 1) = Polynomial.X * toPoly v := by
  unfold toPoly
  rw [Finset.sum_range_succ']
  conv_rhs => rw [Finset.sum_range_succ]
  have h15 : bitc v 15 = 0 := by
    unfold bitc
    rw [Nat.testBit_lt_two_pow (by norm_num at h ⊢; omega)]
    simp
  have h0 : bitc (v <<< 1) 0 = 0 := by
    unfold bitc
    rw [Nat.testBit_shiftLeft]
    simp
  have hsucc : ∀ i : Nat, bitc (v <<< 1) (i + 1) = bitc v i := by
    intro i
    unfold bitc
    rw [Nat.testBit_shiftLeft]
    simp
  rw [h15, h0]
  simp only [map_zero, zero_mul, add_zero, pow_zero, mul_zero]
  rw [Finset.mul_sum]
  refine Finset.sum_congr rfl fun i _ => ?_
  rw [hsucc i, pow_succ]
  ring

open Polynomial in
theorem toPoly_283 : toPoly 283 = gfPoly := by
  unfold toPoly gfPoly
  norm_num [Finset.sum_range_succ, bitc, Nat.testBit_succ, Nat.testBit_zero]
  ring

theorem xor_lt_256 {a b : Nat} (ha : a < 256) (hb : b < 256) : a ^^^ b < 256 := by
  have h := Nat.xor_lt_two_pow (show a < 2 ^ 8 by norm_num; omega)
    (show b < 2 ^ 8 by norm_num; omega)
  norm_num at h
  omega

theorem expStep_iterate_lt {x : Nat} (h : x < 256) (n : Nat) : expStep^[n] x < 256 := by
  induction n with
  | zero => exact h
  | succ n ih => rw [Function.iterate_succ_apply']; exact expStep_lt ih

open Polynomial in
theorem toPoly_expStep {x : Nat} (h : x < 256) :
    gfPoly ∣ toPoly (expStep x) - (1 + Polynomial.X) * toPoly x := by
  have hxy : toPoly (x ^^^ (x <<< 1)) = (1 + Polynomial.X) * toPoly x := by
    rw [toPoly_xor, toPoly_shiftLeft (by omega), add_mul, one_mul]
  by_cases hge : x ^^^ (x <<< 1) ≥ 256
  · have hstep : expStep x = (x ^^^ (x <<< 1)) ^^^ 283 := by
      unfold expStep
      simp [hge]
    rw [hstep, toPoly_xor, toPoly_283, hxy]
    have : (1 + Polynomial.X) * toPoly x + gfPoly - (1 + Polynomial.X) * toPoly x
        = gfPoly := by ring
    rw [this]
  · have hstep : expStep x = x ^^^ (x <<< 1) := by
      unfold expStep
      simp [hge]
    rw [hstep, hxy, sub_self]
    exact dvd_zero _

open Polynomial in
theorem toPoly_iterate {x : Nat} (h : x < 256) (n : Nat) :
    gfPoly ∣ toPoly (expStep^[n] x) - (1 + Polynomial.X) ^ n * toPoly x := by
  induction n with
  | zero => simp
  | succ n ih =>
    rw [Function.iterate_succ_apply']
    have h1 := toPoly_expStep (expStep_iterate_lt h n)
    have key : toPoly (expStep (expStep^[n] x)) - (1 + Polynomial.X) ^ (n + 1) * toPoly x
        = (toPoly (expStep (expStep^[n] x)) - (1 + Polynomial.X) * toPoly (expStep^[n] x))
          + (1 + Polynomial.X) *
            (toPoly (expStep^[n] x) - (1 + Polynomial.X) ^ n * toPoly x) := by
      ring
    rw [key]
    exact dvd_add h1 (ih.mul_left _)

open Polynomial in
theorem toPoly_gfMul {a b : Nat} (ha : a < 256) (hb : b < 256) :
    gfPoly ∣ toPoly (gfMul a b) - toPoly a * toPoly b := by
  by_cases ha0 : a = 0
  · subst ha0
    simp [gfMul_zero_left, toPoly_zero_val]
  by_cases hb0 : b = 0
  · subst hb0
    simp [gfMul_zero_right, toPoly_zero_val]
  rw [gfMul_eq_iterate ha0 hb]
  have h1 := toPoly_iterate hb (logT a)
  have h2 := toPoly_iterate (show (1 : Nat) < 256 by omega) (logT a)
  rw [toPoly_one_val, mul_one, ← expT_eq_iterate, expT_logT ha ha0] at h2
  have key : toPoly (expStep^[logT a] b) - toPoly a * toPoly b
      = (toPoly (expStep^[logT a] b) - (1 + Polynomial.X) ^ logT a * toPoly b)
        - (toPoly a - (1 + Polynomial.X) ^ logT a) * toPoly b := by ring
  rw [key]
  exact dvd_sub h1 (h2.mul_right _)

open Polynomial in
theorem toPoly_degree_lt {v : Nat} (h : v < 256) : (toPoly v).degree < 8 := by
  have hsub : toPoly v = ∑ i ∈ Finset.range 8, Polynomial.C (bitc v i) * Polynomial.X ^ i := by
    unfold toPoly
    refine (Finset.sum_subset (Finset.range_subset.mpr (by omega)) fun x _ hx => ?_).symm
    have hx8 : 8 ≤ x := by
      by_contra hc
      exact hx (Finset.mem_range.mpr (by omega))
    have : bitc v x = 0 := by
      unfold bitc
      rw [Nat.testBit_lt_two_pow (lt_of_lt_of_le h ?_)]
      · simp
      · calc (256 : Nat) = 2 ^ 8 := by norm_num
        _ ≤ 2 ^ x := Nat.pow_le_pow_right (by omega) hx8
    rw [this, map_zero, zero_mul]
  rw [hsub]
  refine lt_of_le_of_lt (Polynomial.degree_sum_le _ _) ?_
  rw [Finset.sup_lt_iff (by exact WithBot.bot_lt_coe 8)]
  intro i hi
  refine lt_of_le_of_lt (Polynomial.degree_C_mul_X_pow_le i _) ?_
  exact_mod_cast Finset.mem_range.mp hi

open Polynomial in
theorem gfPoly_coeff8 : gfPoly.coeff 8 = 1 := by
  unfold gfPoly
  simp [Polynomial.coeff_add, Polynomial.coeff_X_pow, Polynomial.coeff_X, Polynomial.coeff_one]

open Polynomial in
theorem gfPoly_degree_ge : (8 : WithBot ℕ) ≤ gfPoly.degree :=
  Polynomial.le_degree_of_ne_zero (by rw [gfPoly_coeff8]; exact one_ne_zero)

/-- Two bytes whose polynomial images are congruent modulo gfPoly are equal. -/
theorem byte_eq_of_congr {u w : Nat} (hu : u < 256) (hw : w < 256)
    (h : gfPoly ∣ toPoly u - toPoly w) : u = w := by
  by_cases hd : toPoly u - toPoly w = 0
  · exact toPoly_inj (by omega) (by omega) (sub_eq_zero.mp hd)
  · exfalso
    have h1 := Polynomial.degree_le_of_dvd h hd
    have h2 : (toPoly u - toPoly w).degree < 8 :=
      lt_of_le_of_lt (Polynomial.degree_sub_le _ _)
        (max_lt (toPoly_degree_lt hu) (toPoly_degree_lt hw))
    exact absurd (lt_of_le_of_lt (le_trans gfPoly_degree_ge h1) h2) (lt_irrefl _)

theorem gfMul_xor_distrib {a b c : Nat} (ha : a < 256) (hb : b < 256) (hc : c < 256) :
    gfMul a (b ^^^ c) = gfMul a b ^^^ gfMul a c := by
  refine byte_eq_of_congr (gfMul_lt _ _) (xor_lt_256 (gfMul_lt _ _) (gfMul_lt _ _)) ?_
  have h1 := toPoly_gfMul ha (xor_lt_256 hb hc)
  have h2 := toPoly_gfMul ha hb
  have h3 := toPoly_gfMul ha hc
  have key : toPoly (gfMul a (b ^^^ c)) - toPoly (gfMul a b ^^^ gfMul a c)
      = (toPoly (gfMul a (b ^^^ c)) - toPoly a * toPoly (b ^^^ c))
        - (toPoly (gfMul a b) - toPoly a * toPoly b)
        - (toPoly (gfMul a c) - toPoly a * toPoly c) := by
    rw [toPoly_xor, toPoly_xor]
    ring
  rw [key]
  exact dvd_sub (dvd_sub h1 h2) h3

theorem gfMul_assoc {a b c : Nat} (ha : a < 256) (hb : b < 256) (hc : c < 256) :
    gfMul (gfMul a b) c = gfMul a (gfMul b c) := by
  refine byte_eq_of_congr (gfMul_lt _ _) (gfMul_lt _ _) ?_
  have h1 := toPoly_gfMul (gfMul_lt a b) hc
  have h2 := toPoly_gfMul ha hb
  have h3 := toPoly_gfMul ha (gfMul_lt b c)
  have h4 := toPoly_gfMul hb hc
  have key : toPoly (gfMul (gfMul a b) c) - toPoly (gfMul a (gfMul b c))
      = (toPoly (gfMul (gfMul a b) c) - toPoly (gfMul a b) * toPoly c)
        + (toPoly (gfMul a b) - toPoly a * toPoly b) * toPoly c
        - (toPoly (gfMul a (gfMul b c)) - toPoly a * toPoly (gfMul b c))
        - toPoly a * (toPoly (gfMul b c) - toPoly b * toPoly c) := by ring
  rw [key]
  exact dvd_sub (dvd_sub (dvd_add h1 (h2.mul_right _)) h3) (h4.mul_left _)

theorem one_gfMul {b : Nat} (hb : b < 256) : gfMul 1 b = b := by
  refine byte_eq_of_congr (gfMul_lt _ _) hb ?_
  have h := toPoly_gfMul (show (1 : Nat) < 256 by omega) hb
  rwa [toPoly_one_val, one_mul] at h

theorem gfMul_one {a : Nat} (ha : a < 256) : gfMul a 1 = a := by
  rw [gfMul_comm]
  exact one_gfMul ha

theorem gfInv_lt (a : Nat) : gfInv a < 256 := by
  unfold gfInv
  split
  · omega
  · exact expT_lt _

theorem gfInv_ne_zero {a : Nat} (ha0 : a ≠ 0) : gfInv a ≠ 0 := by
  unfold gfInv
  rw [if_neg ha0]
  exact expT_ne_zero _

theorem gfMul_gfInv {a : Nat} (ha : a < 256) (ha0 : a ≠ 0) : gfMul a (gfInv a) = 1 := by
  have hla := logT_lt ha ha0
  unfold gfInv gfMul
  rw [if_neg ha0, if_neg (by push_neg; exact ⟨ha0, expT_ne_zero _⟩)]
  rw [logT_expT (Nat.mod_lt _ (by omega))]
  have hidx : (logT a + (255 - logT a) % 255) % 255 = 0 := by omega
  rw [hidx, expT_zero_eq]

theorem gfDiv_eq_gfMul_gfInv {a b : Nat} (ha0 : a < 256) (hb : b < 256) (hb0 : b ≠ 0) :
    gfDiv a b = .ok (gfMul a (gfInv b)) := by
  unfold gfDiv
  rw [if_neg hb0]
  by_cases ha : a = 0
  · subst ha
    rw [if_pos rfl, gfMul_zero_left]
  · rw [if_neg ha]
    have hlb := logT_lt hb hb0
    unfold gfInv gfMul
    rw [if_neg hb0, if_neg (by push_neg; exact ⟨ha, expT_ne_zero _⟩)]
    rw [logT_expT (Nat.mod_lt _ (by omega))]
    have hidx : (logT a + 255 - logT b) % 255 = (logT a + (255 - logT b) % 255) % 255 := by
      omega
    rw [hidx]

/-! ## The spec's multiplication (carry-less product mod 0x11B) -/

theorem lt_pow_of_testBit_false {z m : Nat} (hz : z < 2 ^ (m + 1))
    (hb : z.testBit m = false) : z < 2 ^ m := by
  by_contra hc
  push_neg at hc
  have h1 : 1 ≤ z / 2 ^ m := (Nat.one_le_div_iff (by positivity)).mpr hc
  have h2 : z / 2 ^ m < 2 := by
    rw [Nat.div_lt_iff_lt_mul (by positivity)]
    calc z < 2 ^ (m + 1) := hz
    _ = 2 * 2 ^ m := by ring
  have h3 : z / 2 ^ m = 1 := by omega
  rw [Nat.testBit_to_div_mod, h3] at hb
  simp at hb

theorem pmulAux_lt : ∀ (f : Nat), f ≤ 16 → ∀ (a b : Nat), a < 2 ^ (16 - f) →
    pmulAux f a b < 65536 := by
  intro f
  induction f with
  | zero => intro _ a b _; unfold pmulAux; omega
  | succ f ih =>
    intro hf a b ha
    unfold pmulAux
    have ha16 : a < 65536 := by
      have : 2 ^ (16 - (f + 1)) ≤ 2 ^ 16 := Nat.pow_le_pow_right (by omega) (by omega)
      norm_num at this ⊢
      omega
    have hrec : pmulAux f (a <<< 1) (b / 2) < 65536 := by
      refine ih (by omega) _ _ ?_
      rw [Nat.shiftLeft_eq]
      have h1 : 16 - f = (16 - (f + 1)) + 1 := by omega
      rw [h1, pow_succ]
      have : 0 < 2 ^ (16 - (f + 1)) := by positivity
      calc a * 2 ^ 1 = a * 2 := by norm_num
      _ < 2 ^ (16 - (f + 1)) * 2 := by omega
    have hif : (if b % 2 = 1 then a else 0) < 65536 := by
      split <;> omega
    have h := Nat.xor_lt_two_pow (show (if b % 2 = 1 then a else 0) < 2 ^ 16 by norm_num; omega)
      (show pmulAux f (a <<< 1) (b / 2) < 2 ^ 16 by norm_num; omega)
    norm_num at h
    omega

open Polynomial in
theorem toPoly_bit_decomp {b : Nat} (h : b < 65536) :
    toPoly b = Polynomial.C (bitc b 0) + Polynomial.X * toPoly (b / 2) := by
  unfold toPoly
  rw [Finset.sum_range_succ']
  conv_rhs => rw [Finset.sum_range_succ]
  have h16 : bitc b 16 = 0 := by
    unfold bitc
    rw [show (16 : Nat) = 15 + 1 from rfl, ← Nat.testBit_div_two,
      Nat.testBit_lt_two_pow]
    · simp
    · have : b / 2 < 32768 := by omega
      norm_num
      omega
  have hdiv : ∀ i : Nat, bitc (b / 2) i = bitc b (i + 1) := by
    intro i
    unfold bitc
    rw [Nat.testBit_div_two]
  rw [hdiv 15, h16]
  simp only [map_zero, zero_mul, add_zero, pow_zero, mul_one]
  rw [Finset.mul_sum, add_comm]
  congr 1
  refine Finset.sum_congr rfl fun i _ => ?_
  rw [hdiv i, pow_succ]
  ring

open Polynomial in
theorem toPoly_pmulAux : ∀ (f : Nat), f ≤ 16 → ∀ (a b : Nat), a < 2 ^ (16 - f) →
    b < 2 ^ f → toPoly (pmulAux f a b) = toPoly a * toPoly b := by
  intro f
  induction f with
  | zero =>
    intro _ a b _ hb
    have hb0 : b = 0 := by norm_num at hb; omega
    subst hb0
    unfold pmulAux
    rw [toPoly_zero_val, mul_zero]
  | succ f ih =>
    intro hf a b ha hb
    unfold pmulAux
    rw [toPoly_xor]
    have hstep : a <<< 1 < 2 ^ (16 - f) := by
      rw [Nat.shiftLeft_eq]
      have h1 : 16 - f = (16 - (f + 1)) + 1 := by omega
      rw [h1, pow_succ]
      have : 0 < 2 ^ (16 - (f + 1)) := by positivity
      calc a * 2 ^ 1 = a * 2 := by norm_num
      _ < 2 ^ (16 - (f + 1)) * 2 := by omega
    have hdivb : b / 2 < 2 ^ f := by
      rw [Nat.div_lt_iff_lt_mul (by omega)]
      rw [pow_succ] at hb
      omega
    have ha15 : a < 32768 := by
      have : 2 ^ (16 - (f + 1)) ≤ 2 ^ 15 := Nat.pow_le_pow_right (by omega) (by omega)
      norm_num at this ⊢
      omega
    have hb16 : b < 65536 := by
      have : 2 ^ (f + 1) ≤ 2 ^ 16 := Nat.pow_le_pow_right (by omega) (by omega)
      norm_num at this ⊢
      omega
    rw [ih (by omega) _ _ hstep hdivb, toPoly_shiftLeft ha15,
      toPoly_bit_decomp hb16]
    by_cases hb2 : b % 2 = 1
    · rw [if_pos hb2]
      have : bitc b 0 = 1 := by
        unfold bitc
        simp [Nat.testBit_zero, hb2]
      rw [this, map_one]
      ring
    · rw [if_neg hb2]
      have : bitc b 0 = 0 := by
        unfold bitc
        simp [Nat.testBit_zero, hb2]
      rw [this, map_zero, toPoly_zero_val]
      ring

open Polynomial in
theorem toPoly_pmul {a b : Nat} (ha : a < 256) (hb : b < 256) :
    toPoly (pmul a b) = toPoly a * toPoly b :=
  toPoly_pmulAux 8 (by omega) a b (by norm_num; omega) (by norm_num; omega)

theorem pmul_lt {a b : Nat} (ha : a < 256) : pmul a b < 65536 :=
  pmulAux_lt 8 (by omega) a b (by norm_num; omega)

open Polynomial in
theorem toPoly_283_shift : ∀ k, k ≤ 7 → toPoly (0x11B <<< k) = Polynomial.X ^ k * gfPoly := by
  intro k
  induction k with
  | zero =>
    intro _
    rw [Nat.shiftLeft_zero, pow_zero, one_mul]
    exact toPoly_283
  | succ k ih =>
    intro hk
    have hshift : (0x11B : Nat) <<< (k + 1) = (0x11B <<< k) <<< 1 := by
      rw [Nat.shiftLeft_eq, Nat.shiftLeft_eq, Nat.shiftLeft_eq, pow_succ]
      ring
    have hlt : (0x11B : Nat) <<< k < 32768 := by
      rw [Nat.shiftLeft_eq]
      have : 2 ^ k ≤ 2 ^ 6 := Nat.pow_le_pow_right (by omega) (by omega)
      norm_num at this ⊢
      omega
    rw [hshift, toPoly_shiftLeft hlt, ih (by omega), pow_succ]
    ring

open Polynomial in
theorem polyModAux_spec : ∀ (k : Nat), k ≤ 8 → ∀ v, v < 2 ^ (8 + k) →
    polyModAux k v < 256 ∧ gfPoly ∣ toPoly (polyModAux k v) - toPoly v := by
  intro k
  induction k with
  | zero =>
    intro _ v hv
    norm_num at hv
    unfold polyModAux
    refine ⟨hv, ?_⟩
    rw [sub_self]
    exact dvd_zero _
  | succ k ih =>
    intro hk v hv
    unfold polyModAux
    by_cases hbit : v.testBit (8 + k)
    · rw [if_pos hbit]
      have hs : (0x11B : Nat) <<< k < 2 ^ (8 + k + 1) := by
        rw [Nat.shiftLeft_eq]
        have h1 : (283 : Nat) < 2 ^ 9 := by norm_num
        calc (283 : Nat) * 2 ^ k < 2 ^ 9 * 2 ^ k := by
              have : 0 < 2 ^ k := by positivity
              exact Nat.mul_lt_mul_of_lt_of_le h1 le_rfl this
        _ = 2 ^ (9 + k) := by rw [← pow_add]
        _ = 2 ^ (8 + k + 1) := by rw [show 9 + k = 8 + k + 1 by omega]
      have hv8 : v < 2 ^ (8 + k + 1) := by
        rwa [show 8 + (k + 1) = 8 + k + 1 by omega] at hv
      have hxor : v ^^^ (0x11B <<< k) < 2 ^ (8 + k) := by
        refine lt_pow_of_testBit_false (Nat.xor_lt_two_pow hv8 hs) ?_
        rw [Nat.testBit_xor, hbit]
        have h283 : ((0x11B : Nat) <<< k).testBit (8 + k) = true := by
          rw [Nat.testBit_shiftLeft]
          have h1 : (8 + k - k) = 8 := by omega
          simp only [h1]
          have h2 : Nat.testBit 283 8 = true := by decide
          simp [h2]
        rw [h283]
        rfl
      obtain ⟨hlt, hdvd⟩ := ih (by omega) _ hxor
      refine ⟨hlt, ?_⟩
      have hv' : toPoly (v ^^^ 0x11B <<< k) = toPoly v + Polynomial.X ^ k * gfPoly := by
        rw [toPoly_xor, toPoly_283_shift k (by omega)]
      have key : toPoly (polyModAux k (v ^^^ 0x11B <<< k)) - toPoly v
          = (toPoly (polyModAux k (v ^^^ 0x11B <<< k)) - toPoly (v ^^^ 0x11B <<< k))
            + (toPoly (v ^^^ 0x11B <<< k) - toPoly v) := by ring
      rw [key]
      refine dvd_add hdvd ?_
      rw [hv']
      have : toPoly v + Polynomial.X ^ k * gfPoly - toPoly v = Polynomial.X ^ k * gfPoly := by
        ring
      rw [this]
      exact dvd_mul_left _ _
    · rw [if_neg hbit]
      refine ih (by omega) v ?_
      have hv8 : v < 2 ^ (8 + k + 1) := by
        rwa [show 8 + (k + 1) = 8 + k + 1 by omega] at hv
      exact lt_pow_of_testBit_false hv8 (by simpa using hbit)

open Polynomial in
theorem polyMod_spec {v : Nat} (hv : v < 65536) :
    polyMod v < 256 ∧ gfPoly ∣ toPoly (polyMod v) - toPoly v := by
  refine polyModAux_spec 8 le_rfl v ?_
  norm_num
  omega

/-- The table-driven gfMul agrees with the spec's carry-less product
reduced modulo 0x11B, on all byte inputs. -/
theorem polyMulMod_eq_gfMul {a b : Nat} (ha : a < 256) (hb : b < 256) :
    polyMulMod a b = gfMul a b := by
  obtain ⟨hlt, hdvd⟩ := polyMod_spec (pmul_lt ha : pmul a b < 65536)
  refine byte_eq_of_congr hlt (gfMul_lt _ _) ?_
  have h2 := toPoly_gfMul ha hb
  rw [toPoly_pmul ha hb] at hdvd
  have key : toPoly (polyMod (pmul a b)) - toPoly (gfMul a b)
      = (toPoly (polyMod (pmul a b)) - toPoly a * toPoly b)
        - (toPoly (gfMul a b) - toPoly a * toPoly b) := by ring
  unfold polyMulMod
  rw [key]
  exact dvd_sub hdvd h2

open Polynomial in
theorem gfPoly_monic : gfPoly.Monic := by
  unfold gfPoly
  have h : (Polynomial.X ^ 4 + Polynomial.X ^ 3 + Polynomial.X + 1 :
      Polynomial (ZMod 2)).degree < (8 : ℕ) := by
    refine lt_of_le_of_lt (Polynomial.degree_add_le _ _) (max_lt ?_ ?_)
    · refine lt_of_le_of_lt (Polynomial.degree_add_le _ _) (max_lt ?_ ?_)
      · refine lt_of_le_of_lt (Polynomial.degree_add_le _ _) (max_lt ?_ ?_)
        · rw [Polynomial.degree_X_pow]
          exact_mod_cast by omega
        · rw [Polynomial.degree_X_pow]
          exact_mod_cast by omega
      · rw [Polynomial.degree_X]
        exact_mod_cast by omega
    · refine lt_of_le_of_lt Polynomial.degree_one_le ?_
      exact_mod_cast by omega
  have heq : (Polynomial.X ^ 8 + Polynomial.X ^ 4 + Polynomial.X ^ 3 +
      Polynomial.X + 1 : Polynomial (ZMod 2)) = Polynomial.X ^ 8 +
      (Polynomial.X ^ 4 + Polynomial.X ^ 3 + Polynomial.X + 1) := by ring
  rw [heq]
  exact Polynomial.monic_X_pow_add h

open Polynomial in
theorem modByMonic_unique {f r q : Polynomial (ZMod 2)} (hm : q.Monic)
    (hd : q ∣ f - r) (hr : r.degree < q.degree) : f %ₘ q = r := by
  have h1 : q ∣ (f %ₘ q - r) := by
    have heq : f %ₘ q - r = (f - r) - q * (f /ₘ q) := by
      rw [Polynomial.modByMonic_eq_sub_mul_div f hm]
      ring
    rw [heq]
    exact dvd_sub hd (Dvd.intro _ rfl)
  by_cases hz : f %ₘ q - r = 0
  · exact sub_eq_zero.mp hz
  · exfalso
    have h2 := Polynomial.degree_le_of_dvd h1 hz
    have h3 : (f %ₘ q - r).degree < q.degree :=
      lt_of_le_of_lt (Polynomial.degree_sub_le _ _)
        (max_lt (Polynomial.degree_modByMonic_lt f hm) hr)
    exact absurd (lt_of_le_of_lt h2 h3) (lt_irrefl _)

/-! ## The field of bytes GF(256)

The byte type with XOR as addition and the source's table-driven gfMul as
multiplication is a field; this packages the lemmas above so that
Mathlib's Lagrange interpolation applies to the source's reconstruction. -/

abbrev GF : Type := {n : Nat // n < 256}

instance : Zero GF := ⟨⟨0, by omega⟩⟩

instance : One GF := ⟨⟨1, by omega⟩⟩

instance : Add GF := ⟨fun a b => ⟨a.1 ^^^ b.1, xor_lt_256 a.2 b.2⟩⟩

instance : Mul GF := ⟨fun a b => ⟨gfMul a.1 b.1, gfMul_lt _ _⟩⟩

instance : Neg GF := ⟨fun a => a⟩

instance : Inv GF := ⟨fun a => ⟨gfInv a.1, gfInv_lt _⟩⟩

instance : CommRing GF where
  add a b := a + b
  zero := 0
  one := 1
  mul a b := a * b
  neg a := -a
  nsmul := nsmulRec
  zsmul := zsmulRec
  add_assoc a b c := by
    apply Subtype.ext
    exact Nat.xor_assoc _ _ _
  zero_add a := by
    apply Subtype.ext
    exact Nat.zero_xor _
  add_zero a := by
    apply Subtype.ext
    exact Nat.xor_zero _
  add_comm a b := by
    apply Subtype.ext
    exact Nat.xor_comm _ _
  neg_add_cancel a := by
    apply Subtype.ext
    exact Nat.xor_self _
  mul_assoc a b c := by
    apply Subtype.ext
    exact gfMul_assoc a.2 b.2 c.2
  one_mul a := by
    apply Subtype.ext
    exact one_gfMul a.2
  mul_one a := by
    apply Subtype.ext
    exact gfMul_one a.2
  mul_comm a b := by
    apply Subtype.ext
    exact gfMul_comm _ _
  left_distrib a b c := by
    apply Subtype.ext
    exact gfMul_xor_distrib a.2 b.2 c.2
  right_distrib a b c := by
    apply Subtype.ext
    show gfMul (a.1 ^^^ b.1) c.1 = gfMul a.1 c.1 ^^^ gfMul b.1 c.1
    rw [gfMul_comm (a.1 ^^^ b.1) c.1, gfMul_xor_distrib c.2 a.2 b.2,
      gfMul_comm c.1 a.1, gfMul_comm c.1 b.1]
  zero_mul a := by
    apply Subtype.ext
    show gfMul 0 a.1 = 0
    exact gfMul_zero_left _
  mul_zero a := by
    apply Subtype.ext
    show gfMul a.1 0 = 0
    exact gfMul_zero_right _

instance : Nontrivial GF :=
  ⟨⟨⟨0, by omega⟩, ⟨1, by omega⟩, fun h => by simpa using congrArg Subtype.val h⟩⟩

instance : Field GF where
  inv a := a⁻¹
  mul_inv_cancel a ha := by
    have hval : a.1 ≠ 0 := fun hv => ha (show a = 0 from Subtype.ext hv)
    exact Subtype.ext (gfMul_gfInv a.2 hval)
  inv_zero := by
    apply Subtype.ext
    show gfInv 0 = 0
    simp [gfInv]
  nnqsmul := _
  nnqsmul_def := fun _ _ => rfl
  qsmul := _
  qsmul_def := fun _ _ => rfl

theorem GF.add_val (a b : GF) : (a + b).1 = a.1 ^^^ b.1 := rfl

theorem GF.mul_val (a b : GF) : (a * b).1 = gfMul a.1 b.1 := rfl

theorem GF.zero_val : (0 : GF).1 = 0 := rfl

theorem GF.one_val : (1 : GF).1 = 1 := rfl

theorem GF.inv_val (a : GF) : (a⁻¹).1 = gfInv a.1 := rfl

theorem GF.neg_eq (a : GF) : -a = a := rfl

theorem GF.sub_eq_add (a b : GF) : a - b = a + b := rfl

/-! ## Transfer between the Nat-level code and the field GF -/

/-- Lift a byte to GF (reducing mod 256; on byte inputs this is the
identity). -/
def toGF (n : Nat) : GF := ⟨n % 256, Nat.mod_lt n (by omega)⟩

theorem toGF_val {n : Nat} (h : n < 256) : (toGF n).1 = n := Nat.mod_eq_of_lt h

theorem toGF_zero : toGF 0 = 0 := rfl

theorem toGF_one : toGF 1 = 1 := rfl

theorem toGF_mul {a b : Nat} (ha : a < 256) (hb : b < 256) :
    toGF (gfMul a b) = toGF a * toGF b := by
  apply Subtype.ext
  rw [toGF_val (gfMul_lt a b), GF.mul_val]
  congr 1 <;> rw [toGF_val] <;> omega

theorem toGF_xor {a b : Nat} (ha : a < 256) (hb : b < 256) :
    toGF (a ^^^ b) = toGF a + toGF b := by
  apply Subtype.ext
  rw [toGF_val (xor_lt_256 ha hb), GF.add_val]
  congr 1 <;> rw [toGF_val] <;> omega

theorem toGF_gfInv {d : Nat} (hd : d < 256) : toGF (gfInv d) = (toGF d)⁻¹ := by
  apply Subtype.ext
  rw [toGF_val (gfInv_lt d), GF.inv_val]
  congr 1
  rw [toGF_val hd]

theorem toGF_ne_zero {d : Nat} (hd : d < 256) (hd0 : d ≠ 0) : toGF d ≠ 0 := by
  intro h
  have := congrArg Subtype.val h
  rw [toGF_val hd, GF.zero_val] at this
  exact hd0 this

/-- Horner evaluation over GF equals the power-sum form. -/
theorem horner_sum (l : List GF) (x : GF) :
    l.foldr (fun c r => r * x + c) 0 = ∑ t ∈ Finset.range l.length, l.getD t 0 * x ^ t := by
  induction l with
  | nil => simp
  | cons c l ih =>
    rw [List.foldr_cons, ih, List.length_cons, Finset.sum_range_succ']
    simp only [List.getD_cons_succ, List.getD_cons_zero, pow_zero, mul_one, pow_succ]
    rw [Finset.sum_mul]
    congr 1
    refine Finset.sum_congr rfl fun t _ => ?_
    ring

theorem evaluatePolynomial_lt (cs : List Nat) (x : Nat) (hcs : ∀ c ∈ cs, c < 256) :
    evaluatePolynomial cs x < 256 := by
  induction cs with
  | nil => unfold evaluatePolynomial; simp
  | cons c cs ih =>
    unfold evaluatePolynomial at *
    rw [List.foldr_cons]
    exact xor_lt_256 (gfMul_lt _ _) (hcs c (by simp))

theorem evaluatePolynomial_toGF (cs : List Nat) (x : Nat) (hcs : ∀ c ∈ cs, c < 256)
    (hx : x < 256) :
    toGF (evaluatePolynomial cs x)
      = (cs.map toGF).foldr (fun c r => r * toGF x + c) 0 := by
  induction cs with
  | nil => unfold evaluatePolynomial; simp; rfl
  | cons c cs ih =>
    unfold evaluatePolynomial at *
    rw [List.foldr_cons, List.map_cons, List.foldr_cons,
      toGF_xor (gfMul_lt _ _) (hcs c (by simp))]
    have hlt : List.foldr (fun c result => gfMul result x ^^^ c) 0 cs < 256 := by
      have h := evaluatePolynomial_lt cs x fun d hd => hcs d (by simp [hd])
      unfold evaluatePolynomial at h
      exact h
    rw [toGF_mul hlt hx, ih fun d hd => hcs d (by simp [hd])]

open Polynomial in
theorem eval_sum_form (l : List GF) (x : GF) :
    (∑ t ∈ Finset.range l.length,
        Polynomial.C (l.getD t 0) * Polynomial.X ^ t).eval x
      = ∑ t ∈ Finset.range l.length, l.getD t 0 * x ^ t := by
  rw [Polynomial.eval_finset_sum]
  refine Finset.sum_congr rfl fun t _ => ?_
  simp

open Polynomial in
theorem degree_listPoly_lt (l : List GF) :
    (∑ t ∈ Finset.range l.length,
        Polynomial.C (l.getD t 0) * Polynomial.X ^ t).degree < (l.length : WithBot ℕ) := by
  refine lt_of_le_of_lt (Polynomial.degree_sum_le _ _) ?_
  rw [Finset.sup_lt_iff (WithBot.bot_lt_coe _)]
  intro t ht
  refine lt_of_le_of_lt (Polynomial.degree_C_mul_X_pow_le t _) ?_
  exact_mod_cast Finset.mem_range.mp ht

open Polynomial in
theorem eval_zero_listPoly (l : List GF) (hl : 0 < l.length) :
    (∑ t ∈ Finset.range l.length,
        Polynomial.C (l.getD t 0) * Polynomial.X ^ t).eval 0 = l.getD 0 0 := by
  rw [Polynomial.eval_finset_sum]
  rw [Finset.sum_eq_single 0]
  · simp
  · intro t _ ht0
    simp [zero_pow ht0]
  · intro h0
    exact absurd (Finset.mem_range.mpr hl) h0

theorem foldl_gfMul_lt (f : Nat → Nat) :
    ∀ (L : List Nat) (a : Nat), a < 256 →
      L.foldl (fun acc j => gfMul acc (f j)) a < 256 := by
  intro L
  induction L with
  | nil => intro a ha; exact ha
  | cons j L ih => intro a _; exact ih _ (gfMul_lt _ _)

theorem foldl_gfMul_ne_zero (f : Nat → Nat) :
    ∀ (L : List Nat) (a : Nat), a ≠ 0 → (∀ j ∈ L, f j ≠ 0) →
      L.foldl (fun acc j => gfMul acc (f j)) a ≠ 0 := by
  intro L
  induction L with
  | nil => intro a ha _; exact ha
  | cons j L ih =>
    intro a ha hf
    exact ih _ (gfMul_ne_zero ha (hf j (by simp))) fun j' hj' => hf j' (by simp [hj'])

theorem foldl_xor_lt :
    ∀ (f : Nat → Nat) (L : List Nat) (a : Nat), a < 256 → (∀ j ∈ L, f j < 256) →
      L.foldl (fun acc j => acc ^^^ f j) a < 256 := by
  intro f L
  induction L with
  | nil => intro a ha _; exact ha
  | cons j L ih =>
    intro a ha hf
    exact ih _ (xor_lt_256 ha (hf j (by simp))) fun j' hj' => hf j' (by simp [hj'])

theorem foldl_gfMul_toGF (f : Nat → Nat) (hf : ∀ j, f j < 256) :
    ∀ (L : List Nat) (a : Nat), a < 256 →
      toGF (L.foldl (fun acc j => gfMul acc (f j)) a)
        = toGF a * (L.map (toGF ∘ f)).prod := by
  intro L
  induction L with
  | nil => intro a _; simp
  | cons j L ih =>
    intro a ha
    rw [List.foldl_cons, ih _ (gfMul_lt _ _), toGF_mul ha (hf j), List.map_cons,
      List.prod_cons, mul_assoc]
    simp [Function.comp_apply]

theorem foldl_xor_toGF (f : Nat → Nat) (hf : ∀ j, f j < 256) :
    ∀ (L : List Nat) (a : Nat), a < 256 →
      toGF (L.foldl (fun acc j => acc ^^^ f j) a)
        = toGF a + (L.map (toGF ∘ f)).sum := by
  intro L
  induction L with
  | nil => intro a _; simp
  | cons j L ih =>
    intro a ha
    rw [List.foldl_cons, ih _ (xor_lt_256 ha (hf j)), toGF_xor ha (hf j), List.map_cons,
      List.sum_cons, add_assoc]
    simp [Function.comp_apply]

theorem list_range_filter_prod (i : Nat) (g : Nat → GF) :
    ∀ m : Nat,
      ((((List.range m).filter fun j => i ≠ j)).map g).prod
        = ∏ j ∈ (Finset.range m).filter (fun j => i ≠ j), g j := by
  intro m
  induction m with
  | zero => simp
  | succ m ih =>
    rw [List.range_succ, List.filter_append, List.map_append, List.prod_append, ih,
      Finset.range_succ, Finset.filter_insert]
    by_cases him : i ≠ m
    · rw [if_pos him, Finset.prod_insert (by simp)]
      have : List.filter (fun j => decide (i ≠ j)) [m] = [m] := by
        simp [him]
      rw [this]
      simp [mul_comm]
    · rw [if_neg him]
      have : List.filter (fun j => decide (i ≠ j)) [m] = [] := by
        simp at him
        simp [him]
      rw [this]
      simp

theorem list_range_sum (g : Nat → GF) :
    ∀ m : Nat, ((List.range m).map g).sum = ∑ j ∈ Finset.range m, g j := by
  intro m
  induction m with
  | zero => simp
  | succ m ih =>
    rw [List.range_succ, List.map_append, List.sum_append, ih, Finset.sum_range_succ]
    simp

theorem foldlExcept_ok (f : Nat → Nat → Except String Nat) (g : Nat → Nat → Nat)
    (L : List Nat) (h : ∀ acc, ∀ i ∈ L, f acc i = .ok (g acc i)) :
    ∀ a, foldlExcept f a L = .ok (L.foldl g a) := by
  induction L with
  | nil => intro a; rfl
  | cons i L ih =>
    intro a
    unfold foldlExcept
    rw [h a i (by simp)]
    exact ih (fun acc i' hi' => h acc i' (by simp [hi'])) _

theorem mapExcept_ok (f : Nat → Except String Nat) (g : Nat → Nat)
    (L : List Nat) (h : ∀ b ∈ L, f b = .ok (g b)) :
    mapExcept f L = .ok (L.map g) := by
  induction L with
  | nil => rfl
  | cons b L ih =>
    unfold mapExcept
    rw [h b (by simp), ih fun b' hb' => h b' (by simp [hb'])]
    rfl

theorem map_getD_range (l : List Nat) :
    (List.range l.length).map (fun b => l.getD b 0) = l := by
  induction l with
  | nil => rfl
  | cons a l ih =>
    have htail : (List.range l.length).map ((fun b => (a :: l).getD b 0) ∘ Nat.succ) = l := by
      refine Eq.trans ?_ ih
      refine List.map_congr_left fun b _ => ?_
      simp [Function.comp_apply]
    rw [List.length_cons, List.range_succ_eq_map, List.map_cons, List.map_map, htail]
    rfl

theorem getD_map_range {α : Type} (f : Nat → α) {m j : Nat} (hj : j < m) (d : α) :
    ((List.range m).map f).getD j d = f j := by
  rw [List.getD_eq_getElem?_getD, List.getElem?_map, List.getElem?_range hj]
  rfl

theorem getD_map_in {α β : Type} (f : α → β) {l : List α} {j : Nat} (hj : j < l.length)
    (d : β) (d' : α) : (l.map f).getD j d = f (l.getD j d') := by
  rw [List.getD_eq_getElem?_getD, List.getElem?_map, List.getElem?_eq_getElem hj,
    List.getD_eq_getElem?_getD, List.getElem?_eq_getElem hj]
  rfl

theorem getD_lt_256 {l : List Nat} {t : Nat} (ht : t < l.length)
    (hl : ∀ c ∈ l, c < 256) (d : Nat) : l.getD t d < 256 := by
  rw [List.getD_eq_getElem?_getD, List.getElem?_eq_getElem ht]
  exact hl _ (List.getElem_mem ht)

open Polynomial in
/-- The Lagrange interpolation sum in the exact shape computed by the
source's reconstruction loop (numerator product times inverse of
denominator product) recovers the constant term of the polynomial. -/
theorem lagrange_code_form (k : Nat) (v : Nat → GF)
    (hinj : Set.InjOn v (Finset.range k))
    (P : Polynomial GF) (hdeg : P.degree < (k : WithBot ℕ)) :
    ∑ i ∈ Finset.range k, P.eval (v i) *
      ((∏ j ∈ (Finset.range k).filter (fun j => i ≠ j), v j) *
       (∏ j ∈ (Finset.range k).filter (fun j => i ≠ j), (v i + v j))⁻¹)
      = P.eval 0 := by
  have h := Lagrange.eq_interpolate hinj
    (by rw [Finset.card_range]; exact hdeg)
  have he := congrArg (Polynomial.eval 0) h
  rw [Lagrange.interpolate_apply, Polynomial.eval_finset_sum] at he
  rw [he]
  refine Finset.sum_congr rfl fun i hi => ?_
  rw [Polynomial.eval_mul, Polynomial.eval_C]
  congr 1
  simp only [Lagrange.basis, Polynomial.eval_prod, Lagrange.basisDivisor,
    Polynomial.eval_mul, Polynomial.eval_C, Polynomial.eval_sub, Polynomial.eval_X]
  rw [Finset.prod_mul_distrib, ← Finset.prod_inv_distrib]
  have hsub : ∀ j : Nat, ((v i - v j)⁻¹ : GF) = (v i + v j)⁻¹ := fun j => by
    rw [GF.sub_eq_add]
  have hzs : ∀ j : Nat, ((0 : GF) - v j) = v j := fun j => by
    rw [GF.sub_eq_add, zero_add]
  simp only [hsub, hzs]
  rw [← Finset.filter_ne, Finset.prod_inv_distrib]
  ring

open Polynomial in
/-- One byte position of the source's reconstruction, fed with k shares
whose x-coordinates xv are distinct nonzero bytes and whose data bytes are
the polynomial evaluations produced by the split, recovers coefficient 0. -/
theorem reconstructByte_ok
    (sel : List (List Nat)) (xs : List Nat) (k : Nat) (hk : 2 ≤ k)
    (hsellen : sel.length = k) (hxslen : xs.length = k)
    (xv : Nat → Nat) (hxv : ∀ t, t < k → xs.getD t 0 = xv t)
    (hxvlt : ∀ t, t < k → xv t < 256)
    (hxvinj : ∀ t1, t1 < k → ∀ t2, t2 < k → xv t1 = xv t2 → t1 = t2)
    (cs : List Nat) (hcslen : cs.length = k) (hcs : ∀ c ∈ cs, c < 256)
    (b : Nat)
    (hy : ∀ i, i < k → (sel.getD i []).getD (b + 1) 0 = evaluatePolynomial cs (xv i)) :
    reconstructByte sel xs b = .ok (cs.getD 0 0) := by
  have hxsb : ∀ j, xs.getD j 0 < 256 := by
    intro j
    by_cases hj : j < k
    · rw [hxv j hj]
      exact hxvlt j hj
    · rw [List.getD_eq_getElem?_getD, List.getElem?_eq_none (by omega)]
      simp
  set v : Nat → GF := fun t => toGF (xs.getD t 0) with hv
  have hvval : ∀ t, t < k → (v t).1 = xv t := by
    intro t ht
    rw [hv]
    simp only []
    rw [hxv t ht, toGF_val (hxvlt t ht)]
  have hvinj : Set.InjOn v (Finset.range k) := by
    intro t1 h1 t2 h2 hval
    simp only [Finset.coe_range, Set.mem_Iio] at h1 h2
    refine hxvinj t1 h1 t2 h2 ?_
    rw [← hvval t1 h1, ← hvval t2 h2, hval]
  have hcsGFlen : (cs.map toGF).length = k := by rw [List.length_map, hcslen]
  set P := ∑ t ∈ Finset.range (cs.map toGF).length,
    Polynomial.C ((cs.map toGF).getD t 0) * Polynomial.X ^ t with hP
  have hdeg : P.degree < (k : WithBot ℕ) := by
    have h := degree_listPoly_lt (cs.map toGF)
    rw [hcsGFlen] at h
    rw [hP, hcsGFlen]
    exact h
  have hPy : ∀ i, i < k → toGF (evaluatePolynomial cs (xv i)) = P.eval (v i) := by
    intro i hi
    have hxvi : toGF (xv i) = v i := by
      rw [hv]
      simp only []
      rw [hxv i hi]
    rw [evaluatePolynomial_toGF cs (xv i) hcs (hxvlt i hi), horner_sum, hP, eval_sum_form,
      hxvi]
  have hnum : ∀ i, toGF (shamirNumerator xs i)
      = ∏ j ∈ (Finset.range k).filter (fun j => i ≠ j), v j := by
    intro i
    unfold shamirNumerator
    rw [hxslen]
    refine Eq.trans (foldl_gfMul_toGF (fun j => xs.getD j 0) hxsb _ 1 (by omega)) ?_
    rw [toGF_one, one_mul]
    exact list_range_filter_prod i (toGF ∘ fun j => xs.getD j 0) k
  have hden : ∀ i, toGF (shamirDenominator xs i)
      = ∏ j ∈ (Finset.range k).filter (fun j => i ≠ j), (v i + v j) := by
    intro i
    unfold shamirDenominator
    rw [hxslen]
    refine Eq.trans (foldl_gfMul_toGF (fun j => xs.getD i 0 ^^^ xs.getD j 0)
      (fun j => xor_lt_256 (hxsb i) (hxsb j)) _ 1 (by omega)) ?_
    rw [toGF_one, one_mul,
      list_range_filter_prod i (toGF ∘ fun j => xs.getD i 0 ^^^ xs.getD j 0) k]
    refine Finset.prod_congr rfl fun j hj => ?_
    show toGF (xs.getD i 0 ^^^ xs.getD j 0) = v i + v j
    rw [toGF_xor (hxsb i) (hxsb j)]
  have hdenne : ∀ i, i < k → shamirDenominator xs i ≠ 0 := by
    intro i hi
    unfold shamirDenominator
    rw [hxslen]
    refine foldl_gfMul_ne_zero _ _ 1 (by omega) ?_
    intro j hj
    rw [List.mem_filter] at hj
    have hjk : j < k := List.mem_range.mp hj.1
    have hij : i ≠ j := by simpa using hj.2
    rw [hxv i hi, hxv j hjk]
    intro hc
    exact hij (hxvinj i hi j hjk (Nat.xor_eq_zero.mp hc))
  have hnumlt : ∀ i, shamirNumerator xs i < 256 := fun i => foldl_gfMul_lt _ _ 1 (by omega)
  have hdenlt : ∀ i, shamirDenominator xs i < 256 := fun i =>
    foldl_gfMul_lt _ _ 1 (by omega)
  have hstep : ∀ acc, ∀ i ∈ List.range sel.length,
      (fun result i =>
        (match gfDiv (shamirNumerator xs i) (shamirDenominator xs i) with
        | .error e => .error e
        | .ok lagrangeCoeff =>
          .ok (result ^^^ gfMul ((sel.getD i []).getD (b + 1) 0) lagrangeCoeff) :
          Except String Nat)) acc i
      = .ok (acc ^^^ gfMul ((sel.getD i []).getD (b + 1) 0)
          (gfMul (shamirNumerator xs i) (gfInv (shamirDenominator xs i)))) := by
    intro acc i hi
    have hik : i < k := by
      rw [← hsellen]
      exact List.mem_range.mp hi
    simp only []
    rw [gfDiv_eq_gfMul_gfInv (hnumlt i) (hdenlt i) (hdenne i hik)]
  unfold reconstructByte
  rw [foldlExcept_ok _
    (fun acc i => acc ^^^ gfMul ((sel.getD i []).getD (b + 1) 0)
      (gfMul (shamirNumerator xs i) (gfInv (shamirDenominator xs i)))) _ hstep 0]
  congr 1
  rw [hsellen]
  have hflt : ∀ j, gfMul ((sel.getD j []).getD (b + 1) 0)
      (gfMul (shamirNumerator xs j) (gfInv (shamirDenominator xs j))) < 256 :=
    fun j => gfMul_lt _ _
  have hval_lt : (List.range k).foldl
      (fun acc i => acc ^^^ gfMul ((sel.getD i []).getD (b + 1) 0)
        (gfMul (shamirNumerator xs i) (gfInv (shamirDenominator xs i)))) 0 < 256 :=
    foldl_xor_lt _ _ 0 (by omega) fun j _ => hflt j
  have h0k : 0 < cs.length := by omega
  have hcs0 : cs.getD 0 0 < 256 := getD_lt_256 h0k hcs 0
  have htoGF : toGF ((List.range k).foldl
      (fun acc i => acc ^^^ gfMul ((sel.getD i []).getD (b + 1) 0)
        (gfMul (shamirNumerator xs i) (gfInv (shamirDenominator xs i)))) 0)
      = toGF (cs.getD 0 0) := by
    refine Eq.trans (foldl_xor_toGF
      (fun i => gfMul ((sel.getD i []).getD (b + 1) 0)
        (gfMul (shamirNumerator xs i) (gfInv (shamirDenominator xs i))))
      hflt (List.range k) 0 (by omega)) ?_
    rw [toGF_zero, zero_add, list_range_sum]
    have hterm : ∀ i ∈ Finset.range k,
        (toGF ∘ fun i => gfMul ((sel.getD i []).getD (b + 1) 0)
          (gfMul (shamirNumerator xs i) (gfInv (shamirDenominator xs i)))) i
        = P.eval (v i) * ((∏ j ∈ (Finset.range k).filter (fun j => i ≠ j), v j)
          * (∏ j ∈ (Finset.range k).filter (fun j => i ≠ j), (v i + v j))⁻¹) := by
      intro i hi
      have hik := Finset.mem_range.mp hi
      show toGF (gfMul ((sel.getD i []).getD (b + 1) 0)
        (gfMul (shamirNumerator xs i) (gfInv (shamirDenominator xs i)))) = _
      rw [hy i hik,
        toGF_mul (evaluatePolynomial_lt cs (xv i) hcs) (gfMul_lt _ _),
        toGF_mul (hnumlt i) (gfInv_lt _),
        toGF_gfInv (hdenlt i),
        hnum i, hden i, hPy i hik]
    rw [Finset.sum_congr rfl hterm, lagrange_code_form k v hvinj P hdeg, hP,
      eval_zero_listPoly (cs.map toGF) (by omega),
      getD_map_in toGF (by omega) 0 0]
  rw [← toGF_val hcs0, ← htoGF]
  exact (toGF_val hval_lt).symm

/-- Reconstruction from any k well-formed shares (x-coordinate xv i
followed by the per-byte evaluations at xv i) returns the constant terms
of the per-byte coefficient arrays. -/
theorem reconstructSecret_ok
    (sel : List (List Nat)) (k L : Nat) (hk : 2 ≤ k) (hsellen : sel.length = k)
    (xv : Nat → Nat)
    (hxvlt : ∀ t, t < k → xv t < 256)
    (hxvinj : ∀ t1, t1 < k → ∀ t2, t2 < k → xv t1 = xv t2 → t1 = t2)
    (cs : Nat → List Nat) (hcslen : ∀ b, b < L → (cs b).length = k)
    (hcs : ∀ b, b < L → ∀ c ∈ cs b, c < 256)
    (hsel : ∀ i, i < k → sel.getD i []
      = xv i :: ((List.range L).map fun b => evaluatePolynomial (cs b) (xv i))) :
    reconstructSecret sel = .ok ((List.range L).map fun b => (cs b).getD 0 0) := by
  unfold reconstructSecret
  rw [if_neg (by omega)]
  have hxs : ∀ t, t < k → (sel.map fun s => s.getD 0 0).getD t 0 = xv t := by
    intro t ht
    rw [getD_map_in (fun s => s.getD 0 0) (show t < sel.length by omega) 0 [],
      hsel t ht]
    rfl
  have hxslen : (sel.map fun s => s.getD 0 0).length = k := by
    rw [List.length_map, hsellen]
  have hhead : (sel.getD 0 []).length - 1 = L := by
    rw [hsel 0 (by omega)]
    simp
  rw [hhead]
  refine Eq.trans (mapExcept_ok _ (fun b => (cs b).getD 0 0) _ ?_) rfl
  intro b hb
  have hbL : b < L := List.mem_range.mp hb
  refine reconstructByte_ok sel _ k hk hsellen hxslen xv hxs hxvlt hxvinj (cs b)
    (hcslen b hbL) (hcs b hbL) b ?_
  intro i hik
  rw [hsel i hik, List.getD_cons_succ]
  exact getD_map_range _ hbL 0

/-- C1: for every secret (of any length), every pair (n,k) with
2 ≤ k ≤ n ≤ 255, every randomness choice, and every k-subset of the n
shares produced by splitSecret, taken in any order (modelled by a
duplicate-free list idx of share indices of length k), reconstructSecret
of the selected shares returns exactly the original secret; in particular
the result does not depend on which k-subset is chosen or on its order. -/
theorem C1_shamir_round_trip
    (secret : List Nat) (hsec : ∀ c ∈ secret, c < 256)
    (n k : Nat) (hk2 : 2 ≤ k) (hkn : k ≤ n) (hn : n ≤ 255)
    (rnd : Nat → Nat → Nat) (hrnd : ∀ i j, rnd i j < 256)
    (shares : List (List Nat)) (hsp : splitSecret secret n k rnd = .ok shares)
    (idx : List Nat) (hlen : idx.length = k) (hnd : idx.Nodup)
    (hmem : ∀ i ∈ idx, i < n) :
    reconstructSecret (idx.map fun i => shares.getD i []) = .ok secret := by
  unfold splitSecret at hsp
  rw [if_neg (by omega), if_neg (by omega), if_neg (by omega)] at hsp
  have hshares := Except.ok.inj hsp
  subst hshares
  have hidxlt : ∀ t, t < k → idx.getD t 0 < n := by
    intro t ht
    refine hmem _ ?_
    rw [List.getD_eq_getElem?_getD, List.getElem?_eq_getElem (show t < idx.length by omega)]
    exact List.getElem_mem _
  have hinj' : ∀ t1, t1 < k → ∀ t2, t2 < k →
      idx.getD t1 0 + 1 = idx.getD t2 0 + 1 → t1 = t2 := by
    intro t1 h1 t2 h2 he
    have he' : idx.getD t1 0 = idx.getD t2 0 := by omega
    have hb1 : t1 < idx.length := by omega
    have hb2 : t2 < idx.length := by omega
    have g1 : idx.getD t1 0 = idx[t1] := by
      rw [List.getD_eq_getElem?_getD, List.getElem?_eq_getElem hb1]
      rfl
    have g2 : idx.getD t2 0 = idx[t2] := by
      rw [List.getD_eq_getElem?_getD, List.getElem?_eq_getElem hb2]
      rfl
    rw [g1, g2] at he'
    exact hnd.getElem_inj_iff.mp he'
  have hcsb : ∀ b, b < secret.length → ∀ c ∈ coefficientsFor secret k rnd b, c < 256 := by
    intro b hb c hc
    unfold coefficientsFor at hc
    rcases List.mem_cons.mp hc with h | h
    · subst h
      exact getD_lt_256 hb hsec 0
    · obtain ⟨t, _, rfl⟩ := List.mem_map.mp h
      exact hrnd b (t + 1)
  have hcsl : ∀ b, b < secret.length → (coefficientsFor secret k rnd b).length = k := by
    intro b _
    unfold coefficientsFor
    rw [List.length_cons, List.length_map, List.length_range]
    omega
  have hselpt : ∀ i, i < k →
      (idx.map fun j => (((List.range n).map fun i =>
        (i + 1) :: ((List.range secret.length).map fun byteIdx =>
          evaluatePolynomial (coefficientsFor secret k rnd byteIdx) (i + 1))).getD j [])).getD i []
      = (idx.getD i 0 + 1) :: ((List.range secret.length).map fun b =>
          evaluatePolynomial (coefficientsFor secret k rnd b) (idx.getD i 0 + 1)) := by
    intro i hik
    rw [getD_map_in (fun j => (((List.range n).map fun i =>
        (i + 1) :: ((List.range secret.length).map fun byteIdx =>
          evaluatePolynomial (coefficientsFor secret k rnd byteIdx) (i + 1))).getD j []))
      (show i < idx.length by omega) [] 0]
    exact getD_map_range _ (hidxlt i hik) []
  refine Eq.trans (reconstructSecret_ok _ k secret.length hk2
    (by rw [List.length_map, hlen])
    (fun t => idx.getD t 0 + 1)
    (fun t ht => by
      have := hidxlt t ht
      show idx.getD t 0 + 1 < 256
      omega) hinj'
    (fun b => coefficientsFor secret k rnd b) hcsl hcsb hselpt) ?_
  congr 1
  exact Eq.trans (List.map_congr_left fun b _ => rfl) (map_getD_range secret)

/-- C1 witness: a concrete secret, (n,k) = (3,2), a concrete randomness
choice and the out-of-order 2-subset {2,0} of the 3 shares. -/
theorem C1_shamir_round_trip_witness :
    reconstructSecret ([2, 0].map fun i =>
      ((splitSecret [17, 200] 3 2 (fun i j => (i + 7 * j) % 256)).toOption.getD []).getD i [])
      = .ok [17, 200] :=
  C1_shamir_round_trip [17, 200] (by decide) 3 2 (by omega) (by omega) (by omega)
    (fun i j => (i + 7 * j) % 256) (fun i j => Nat.mod_lt _ (by omega))
    ((splitSecret [17, 200] 3 2 (fun i j => (i + 7 * j) % 256)).toOption.getD [])
    (by rfl) [2, 0] (by rfl) (by decide) (by decide)

/-- C8: splitSecret validates its threshold arguments and nothing else:
it succeeds exactly when 2 ≤ k ≤ n ≤ 255, and on violation it fails with
one of the three threshold error messages. -/
theorem C8_split_threshold_validation (secret : List Nat) (n k : Nat)
    (rnd : Nat → Nat → Nat) :
    ((∃ shares, splitSecret secret n k rnd = .ok shares) ↔ (2 ≤ k ∧ k ≤ n ∧ n ≤ 255))
    ∧ (¬ (2 ≤ k ∧ k ≤ n ∧ n ≤ 255) →
        (splitSecret secret n k rnd = .error "Threshold must be <= number of shares"
        ∨ splitSecret secret n k rnd = .error "Threshold must be >= 2"
        ∨ splitSecret secret n k rnd = .error "Max 255 shares")) := by
  unfold splitSecret
  split_ifs with h1 h2 h3
  · exact ⟨⟨fun ⟨_, h⟩ => h.elim, fun hb => absurd hb (by omega)⟩,
      fun _ => Or.inl rfl⟩
  · exact ⟨⟨fun ⟨_, h⟩ => h.elim, fun hb => absurd hb (by omega)⟩,
      fun _ => Or.inr (Or.inl rfl)⟩
  · exact ⟨⟨fun ⟨_, h⟩ => h.elim, fun hb => absurd hb (by omega)⟩,
      fun _ => Or.inr (Or.inr rfl)⟩
  · exact ⟨⟨fun _ => by omega, fun _ => ⟨_, rfl⟩⟩,
      fun hb => absurd ⟨by omega, by omega, by omega⟩ hb⟩

/-- C7: under the precondition 2 ≤ k ≤ n ≤ 255, splitSecret returns
exactly n shares; share i has length len(secret)+1 and byte 0 equal to
i+1 (so x-coordinates are exactly 1..n, unique); and for each byte
position b there is ONE k-coefficient (degree k-1) polynomial, common
to all shares, whose coefficient 0 is secret[b] and whose Horner
evaluation at x = i+1 is byte b+1 of share i, for every share i. -/
theorem C7_split_share_shape
    (secret : List Nat) (n k : Nat) (rnd : Nat → Nat → Nat)
    (hk2 : 2 ≤ k) (hkn : k ≤ n) (hn : n ≤ 255)
    (shares : List (List Nat)) (hsp : splitSecret secret n k rnd = .ok shares) :
    shares.length = n
    ∧ (∀ i, i < n → (shares.getD i []).length = secret.length + 1
        ∧ (shares.getD i []).getD 0 0 = i + 1)
    ∧ (∀ b, b < secret.length →
        ∃ cs : List Nat, cs.length = k ∧ cs.getD 0 0 = secret.getD b 0 ∧
          ∀ i, i < n →
            (shares.getD i []).getD (b + 1) 0 = evaluatePolynomial cs (i + 1)) := by
  unfold splitSecret at hsp
  rw [if_neg (by omega), if_neg (by omega), if_neg (by omega)] at hsp
  have h := Except.ok.inj hsp
  subst h
  refine ⟨by simp, fun i hi => ?_, fun b hb => ?_⟩
  · rw [getD_map_range _ hi []]
    exact ⟨by simp, by simp⟩
  · refine ⟨coefficientsFor secret k rnd b, ?_, rfl, fun i hi => ?_⟩
    · unfold coefficientsFor
      simp
      omega
    · rw [getD_map_range _ hi [], List.getD_cons_succ]
      exact getD_map_range _ hb 0

/-- The concrete split used by the C7 witness. -/
def c7Shares : List (List Nat) :=
  (splitSecret [9, 33] 4 3 (fun i j => (5 * i + j) % 256)).toOption.getD []

/-- C7 witness at a concrete split. -/
theorem C7_split_share_shape_witness :
    c7Shares.length = 4
    ∧ (∀ i, i < 4 →
        ((c7Shares.getD i []).length = [9, 33].length + 1)
        ∧ ((c7Shares.getD i []).getD 0 0 = i + 1))
    ∧ (∀ b, b < [9, 33].length →
        ∃ cs : List Nat, cs.length = 3 ∧ cs.getD 0 0 = [9, 33].getD b 0 ∧
          ∀ i, i < 4 →
            (c7Shares.getD i []).getD (b + 1) 0 = evaluatePolynomial cs (i + 1)) := by
  have h := C7_split_share_shape [9, 33] 4 3 (fun i j => (5 * i + j) % 256)
    (by omega) (by omega) (by omega) c7Shares (by rfl)
  exact ⟨h.1, fun i hi => h.2.1 i hi, fun b hb => h.2.2 b hb⟩

/-- C3 counterexample: reconstructing from two shares with the same
x-coordinate raises the GF(256) division-by-zero error instead of
returning a byte sequence silently. -/
theorem C3_counterexample :
    reconstructSecret [[1, 0], [1, 0]] = .error "Division by zero in GF(256)" := by
  rfl

/-- C3 (amended): reconstructSecret performs no validation that its
shares belong to one split: for every list of at least 2 shares whose
x-coordinates (byte 0) are pairwise distinct — including shares taken
from splits of different secrets — it returns a byte sequence without
raising any error.  (With duplicate x-coordinates the division-by-zero
error is raised; see the counterexample.) -/
theorem C3_reconstruct_no_validation
    (shares : List (List Nat)) (hlen : 2 ≤ shares.length)
    (hdistinct : (shares.map fun s => s.getD 0 0).Nodup) :
    ∃ bs, reconstructSecret shares = .ok bs := by
  have hxslen : (shares.map fun s => s.getD 0 0).length = shares.length :=
    List.length_map _ _
  have hdenne : ∀ i, i < shares.length →
      shamirDenominator (shares.map fun s => s.getD 0 0) i ≠ 0 := by
    intro i hi
    unfold shamirDenominator
    rw [hxslen]
    refine foldl_gfMul_ne_zero _ _ 1 (by omega) ?_
    intro j hj
    rw [List.mem_filter] at hj
    have hjlen : j < shares.length := List.mem_range.mp hj.1
    have hij : i ≠ j := by simpa using hj.2
    intro hc
    have hgd : (shares.map fun s => s.getD 0 0).getD i 0
        = (shares.map fun s => s.getD 0 0).getD j 0 := Nat.xor_eq_zero.mp hc
    have hb1 : i < (shares.map fun s => s.getD 0 0).length := by omega
    have hb2 : j < (shares.map fun s => s.getD 0 0).length := by omega
    have g1 : (shares.map fun s => s.getD 0 0).getD i 0
        = (shares.map fun s => s.getD 0 0)[i] := by
      rw [List.getD_eq_getElem?_getD, List.getElem?_eq_getElem hb1]
      rfl
    have g2 : (shares.map fun s => s.getD 0 0).getD j 0
        = (shares.map fun s => s.getD 0 0)[j] := by
      rw [List.getD_eq_getElem?_getD, List.getElem?_eq_getElem hb2]
      rfl
    rw [g1, g2] at hgd
    exact hij (hdistinct.getElem_inj_iff.mp hgd)
  have hstep : ∀ b : Nat, ∀ acc, ∀ i ∈ List.range shares.length,
      (fun result i =>
        (match gfDiv (shamirNumerator (shares.map fun s => s.getD 0 0) i)
            (shamirDenominator (shares.map fun s => s.getD 0 0) i) with
        | .error e => .error e
        | .ok lagrangeCoeff =>
          .ok (result ^^^ gfMul ((shares.getD i []).getD (b + 1) 0) lagrangeCoeff) :
          Except String Nat)) acc i
      = .ok (acc ^^^ gfMul ((shares.getD i []).getD (b + 1) 0)
          (gfMul (shamirNumerator (shares.map fun s => s.getD 0 0) i)
            (gfInv (shamirDenominator (shares.map fun s => s.getD 0 0) i)))) := by
    intro b acc i hi
    have hik : i < shares.length := List.mem_range.mp hi
    have hnumlt : shamirNumerator (shares.map fun s => s.getD 0 0) i < 256 :=
      foldl_gfMul_lt _ _ 1 (by omega)
    have hdenlt : shamirDenominator (shares.map fun s => s.getD 0 0) i < 256 :=
      foldl_gfMul_lt _ _ 1 (by omega)
    simp only []
    rw [gfDiv_eq_gfMul_gfInv hnumlt hdenlt (hdenne i hik)]
  refine ⟨(List.range ((shares.getD 0 []).length - 1)).map
    (fun b => (List.range shares.length).foldl
      (fun acc i => acc ^^^ gfMul ((shares.getD i []).getD (b + 1) 0)
        (gfMul (shamirNumerator (shares.map fun s => s.getD 0 0) i)
          (gfInv (shamirDenominator (shares.map fun s => s.getD 0 0) i)))) 0), ?_⟩
  unfold reconstructSecret
  rw [if_neg (by omega)]
  refine mapExcept_ok _ (fun b => (List.range shares.length).foldl
    (fun acc i => acc ^^^ gfMul ((shares.getD i []).getD (b + 1) 0)
      (gfMul (shamirNumerator (shares.map fun s => s.getD 0 0) i)
        (gfInv (shamirDenominator (shares.map fun s => s.getD 0 0) i)))) 0) _ ?_
  intro b _
  unfold reconstructByte
  rw [foldlExcept_ok _
    (fun acc i => acc ^^^ gfMul ((shares.getD i []).getD (b + 1) 0)
      (gfMul (shamirNumerator (shares.map fun s => s.getD 0 0) i)
        (gfInv (shamirDenominator (shares.map fun s => s.getD 0 0) i)))) _ (hstep b) 0]

/-- C3 amended-claim witness: two shares of the same length carrying
different secrets, distinct x-coordinates; reconstruction silently
succeeds. -/
theorem C3_reconstruct_no_validation_witness :
    ∃ bs, reconstructSecret [[1, 10, 20], [3, 7, 255]] = .ok bs :=
  C3_reconstruct_no_validation [[1, 10, 20], [3, 7, 255]] (by decide) (by decide)

open Polynomial in
/-- C2: gfMul is multiplication in GF(2^8) modulo 0x11B — it agrees with
the carry-less product reduced mod 0x11B (both in the bit-vector form
polyMulMod and as polynomial reduction modulo x^8+x^4+x^3+x+1), returns 0
iff an operand is 0, and otherwise is exp[(log a + log b) % 255]; gfDiv
fails exactly when b = 0, returns 0 for a = 0, otherwise
exp[(log a - log b + 255) % 255], and its result is the unique field
element c with gfMul c b = a. -/
theorem C2_gf_field_ops (a b : Nat) (ha : a < 256) (hb : b < 256) :
    gfMul a b = polyMulMod a b
    ∧ toPoly (gfMul a b) = (toPoly a * toPoly b) %ₘ gfPoly
    ∧ ((a = 0 ∨ b = 0) → gfMul a b = 0)
    ∧ (a ≠ 0 → b ≠ 0 → gfMul a b = expT ((logT a + logT b) % 255))
    ∧ (b = 0 → gfDiv a b = .error "Division by zero in GF(256)")
    ∧ (b ≠ 0 → a = 0 → gfDiv a b = .ok 0)
    ∧ (b ≠ 0 → a ≠ 0 → gfDiv a b = .ok (expT ((logT a + 255 - logT b) % 255)))
    ∧ (b ≠ 0 → ∃ c, gfDiv a b = .ok c ∧ c < 256 ∧ gfMul c b = a
        ∧ ∀ c', c' < 256 → gfMul c' b = a → c' = c) := by
  refine ⟨(polyMulMod_eq_gfMul ha hb).symm, ?_, ?_, ?_, ?_, ?_, ?_, ?_⟩
  · refine (modByMonic_unique gfPoly_monic ?_ ?_).symm
    · have h := toPoly_gfMul ha hb
      have heq : toPoly a * toPoly b - toPoly (gfMul a b)
          = -(toPoly (gfMul a b) - toPoly a * toPoly b) := by ring
      rw [heq]
      exact dvd_neg.mpr h
    · exact lt_of_lt_of_le (toPoly_degree_lt (gfMul_lt a b)) gfPoly_degree_ge
  · rintro (rfl | rfl)
    · exact gfMul_zero_left b
    · exact gfMul_zero_right a
  · intro ha0 hb0
    unfold gfMul
    rw [if_neg (by tauto)]
  · intro hb0
    unfold gfDiv
    rw [if_pos hb0]
  · intro hb0 ha0
    subst ha0
    unfold gfDiv
    rw [if_neg hb0, if_pos rfl]
  · intro hb0 ha0
    unfold gfDiv
    rw [if_neg hb0, if_neg ha0]
  · intro hb0
    refine ⟨gfMul a (gfInv b), gfDiv_eq_gfMul_gfInv ha hb hb0, gfMul_lt _ _, ?_, ?_⟩
    · have hGF : toGF a * (toGF b)⁻¹ * toGF b = toGF a :=
        inv_mul_cancel_right₀ (toGF_ne_zero hb hb0) _
      have hchain : toGF (gfMul (gfMul a (gfInv b)) b) = toGF a := by
        rw [toGF_mul (gfMul_lt _ _) hb, toGF_mul ha (gfInv_lt _), toGF_gfInv hb]
        exact hGF
      have h1 := congrArg Subtype.val hchain
      rwa [toGF_val (gfMul_lt _ _), toGF_val ha] at h1
    · intro c' hc' hcb
      have h1 : toGF (gfMul c' b) = toGF a := by rw [hcb]
      rw [toGF_mul hc' hb] at h1
      have h2 : toGF c' = toGF a * (toGF b)⁻¹ := by
        rw [← h1]
        exact (mul_inv_cancel_right₀ (toGF_ne_zero hb hb0) _).symm
      have h3 : toGF c' = toGF (gfMul a (gfInv b)) := by
        rw [h2, toGF_mul ha (gfInv_lt _), toGF_gfInv hb]
      have h4 := congrArg Subtype.val h3
      rwa [toGF_val hc', toGF_val (gfMul_lt _ _)] at h4

open Polynomial in
/-- C2 witness at a = 7, b = 3 (with 7 * 3 = 9 in the AES field). -/
theorem C2_gf_field_ops_witness :
    gfMul 7 3 = polyMulMod 7 3
    ∧ toPoly (gfMul 7 3) = (toPoly 7 * toPoly 3) %ₘ gfPoly
    ∧ (((7 : Nat) = 0 ∨ (3 : Nat) = 0) → gfMul 7 3 = 0)
    ∧ ((7 : Nat) ≠ 0 → (3 : Nat) ≠ 0 → gfMul 7 3 = expT ((logT 7 + logT 3) % 255))
    ∧ ((3 : Nat) = 0 → gfDiv 7 3 = .error "Division by zero in GF(256)")
    ∧ ((3 : Nat) ≠ 0 → (7 : Nat) = 0 → gfDiv 7 3 = .ok 0)
    ∧ ((3 : Nat) ≠ 0 → (7 : Nat) ≠ 0 →
        gfDiv 7 3 = .ok (expT ((logT 7 + 255 - logT 3) % 255)))
    ∧ ((3 : Nat) ≠ 0 → ∃ c, gfDiv 7 3 = .ok c ∧ c < 256 ∧ gfMul c 3 = 7
        ∧ ∀ c', c' < 256 → gfMul c' 3 = 7 → c' = c) :=
  C2_gf_field_ops 7 3 (by decide) (by decide)

/-! ## Symbolic model of the NaCl box primitives (tweetnacl)

tweetnacl is an external library, not part of the repository; the
primitives are modelled from the spec ("NaCl-style box semantics:
XSalsa20-Poly1305 with X25519 key agreement"), in the standard symbolic
(Dolev-Yao) style: a ciphertext records the shared key, nonce and message
and opens only under the matching shared key and nonce. -/

/-- Modelled from the spec: X25519 public-key derivation
(nacl.box.keyPair), symbolic.  Key material is a Nat; the public key is
an injective tagged encoding of the secret scalar, standing for the
scalar multiple of the base point. -/
def pubOf (sk : Nat) : Nat := Nat.pair 1 sk

/-- Modelled from the spec: the X25519 shared secret of a secret key and
a peer public key.  On a well-formed point pubOf k it is symmetric in the
two scalars; any other byte string decodes to a distinct tagged value
(X25519 accepts arbitrary 32-byte strings). -/
def dh (sk pk : Nat) : Nat :=
  if (Nat.unpair pk).1 = 1 then
    Nat.pair 2 (Nat.pair (min sk (Nat.unpair pk).2) (max sk (Nat.unpair pk).2))
  else Nat.pair 3 (Nat.pair sk pk)

/-- Modelled from the spec: a nacl.box ciphertext, symbolic — it records
the shared key, the nonce, and the message. -/
structure BoxCT where
  key : Nat
  nonce : Nat
  msg : List Nat
deriving DecidableEq

/-- Modelled from the spec: nacl.box — authenticated encryption from
senderSecretKey to recipientPublicKey under a nonce. -/
def naclBox (m : List Nat) (nonce : Nat) (pk sk : Nat) : BoxCT :=
  ⟨dh sk pk, nonce, m⟩

/-- Modelled from the spec: nacl.box.open — returns the message when the
shared key recomputed from (senderPublicKey, recipientSecretKey) and the
nonce both match, and null otherwise. -/
def naclBoxOpen (c : BoxCT) (nonce : Nat) (pk sk : Nat) : Option (List Nat) :=
  if c.key = dh sk pk ∧ c.nonce = nonce then some c.msg else none

/-- Modelled from the spec: the base64 wire encoding, a canonical
injective encoding modelled as a type-tagged identity. -/
structure B64 (α : Type) where
  data : α
deriving DecidableEq

/-- The EncryptedShare record {nonce, encrypted} of the key-management
module (base64 strings on the wire). -/
structure EncryptedShare where
  nonce : B64 Nat
  encrypted : B64 BoxCT
deriving DecidableEq

/-- encryptForRecipient from the key-management module: decode the base64
keys, draw a fresh random nonce (a parameter here), call nacl.box and
return the base64 nonce and ciphertext. -/
def encryptForRecipient (data : List Nat) (recipientPublicKey : B64 Nat)
    (senderSecretKey : B64 Nat) (nonce : Nat) : EncryptedShare :=
  { nonce := ⟨nonce⟩
    encrypted := ⟨naclBox data nonce recipientPublicKey.data senderSecretKey.data⟩ }

/-- decryptFromSender from the key-management module: decode the base64
arguments, call nacl.box.open and throw 'Decryption failed' when it
returns null. -/
def decryptFromSender (encrypted : B64 BoxCT) (nonce : B64 Nat)
    (senderPublicKey : B64 Nat) (recipientSecretKey : B64 Nat) :
    Except String (List Nat) :=
  match naclBoxOpen encrypted.data nonce.data senderPublicKey.data
      recipientSecretKey.data with
  | none => .error "Decryption failed"
  | some m => .ok m

theorem dh_comm (a b : Nat) : dh a (pubOf b) = dh b (pubOf a) := by
  unfold dh pubOf
  rw [Nat.unpair_pair, Nat.unpair_pair]
  simp [Nat.min_comm, Nat.max_comm]

theorem pair_one_gt (x : Nat) : x < Nat.pair 1 x := by
  unfold Nat.pair
  split
  · have h1 : x * 1 ≤ x * x := Nat.mul_le_mul_left x (by omega)
    omega
  · omega

/-- Passing a raw secret key where a public key belongs never produces
the shared secret that box.open recomputes from the matching public key:
the two shared-secret values always differ in the symbolic model. -/
theorem dh_confusion (nodeSk eSk : Nat) : dh eSk nodeSk ≠ dh nodeSk (pubOf eSk) := by
  have hrhs : dh nodeSk (pubOf eSk)
      = Nat.pair 2 (Nat.pair (min nodeSk eSk) (max nodeSk eSk)) := by
    unfold dh pubOf
    rw [Nat.unpair_pair]
    simp
  rw [hrhs]
  unfold dh
  by_cases h : (Nat.unpair nodeSk).1 = 1
  · rw [if_pos h]
    intro hc
    have hnode : nodeSk = Nat.pair 1 (Nat.unpair nodeSk).2 := by
      conv_lhs => rw [← Nat.pair_unpair nodeSk, h]
    have h1 := congrArg Nat.unpair hc
    rw [Nat.unpair_pair, Nat.unpair_pair] at h1
    have h2 : Nat.pair (min eSk (Nat.unpair nodeSk).2) (max eSk (Nat.unpair nodeSk).2)
        = Nat.pair (min nodeSk eSk) (max nodeSk eSk) := congrArg Prod.snd h1
    have h3 := congrArg Nat.unpair h2
    rw [Nat.unpair_pair, Nat.unpair_pair] at h3
    have hmin : min eSk (Nat.unpair nodeSk).2 = min nodeSk eSk := congrArg Prod.fst h3
    have hmax : max eSk (Nat.unpair nodeSk).2 = max nodeSk eSk := congrArg Prod.snd h3
    have hdisj : (Nat.unpair nodeSk).2 = nodeSk
        ∨ (nodeSk = eSk ∧ (Nat.unpair nodeSk).2 = eSk) := by
      rw [Nat.min_def, Nat.min_def] at hmin
      rw [Nat.max_def, Nat.max_def] at hmax
      split_ifs at hmin hmax <;> omega
    rcases hdisj with h4 | ⟨h4, h5⟩
    · rw [h4] at hnode
      exact (Nat.ne_of_lt (pair_one_gt nodeSk)) hnode
    · rw [h5, ← h4] at hnode
      exact (Nat.ne_of_lt (pair_one_gt nodeSk)) hnode
  · rw [if_neg h]
    intro hc
    have h1 := congrArg Nat.unpair hc
    rw [Nat.unpair_pair, Nat.unpair_pair] at h1
    have h2 : (3 : Nat) = 2 := congrArg Prod.fst h1
    omega

/-- C6: sealing a share to a node and opening it with the matching keys
returns exactly the original share; opening under any non-matching shared
key fails with the decryption error and yields nothing; and any accepted
ciphertext is exactly an honest sealing, under the matching shared key
and nonce, of the returned plaintext (fail-closed: no partial or altered
plaintext is ever returned). -/
theorem C6_box_roundtrip (share : List Nat) (senderSk nodeSk nonce : Nat) :
    (decryptFromSender
        (encryptForRecipient share ⟨pubOf nodeSk⟩ ⟨senderSk⟩ nonce).encrypted
        (encryptForRecipient share ⟨pubOf nodeSk⟩ ⟨senderSk⟩ nonce).nonce
        ⟨pubOf senderSk⟩ ⟨nodeSk⟩ = .ok share)
    ∧ (∀ spk rsk : Nat, dh rsk spk ≠ dh senderSk (pubOf nodeSk) →
        decryptFromSender
          (encryptForRecipient share ⟨pubOf nodeSk⟩ ⟨senderSk⟩ nonce).encrypted
          (encryptForRecipient share ⟨pubOf nodeSk⟩ ⟨senderSk⟩ nonce).nonce
          ⟨spk⟩ ⟨rsk⟩ = .error "Decryption failed")
    ∧ (∀ (ct : B64 BoxCT) (nn : B64 Nat) (spk rsk : Nat) (m : List Nat),
        decryptFromSender ct nn ⟨spk⟩ ⟨rsk⟩ = .ok m →
        ct.data = naclBox m nn.data spk rsk) := by
  refine ⟨?_, ?_, ?_⟩
  · unfold decryptFromSender encryptForRecipient naclBoxOpen naclBox
    simp [dh_comm senderSk nodeSk]
  · intro spk rsk hne
    unfold decryptFromSender encryptForRecipient naclBoxOpen naclBox
    simp only []
    rw [if_neg (fun hcond => hne (And.left hcond).symm)]
  · intro ct nn spk rsk m h
    unfold decryptFromSender naclBoxOpen at h
    by_cases hcond : ct.data.key = dh rsk spk ∧ ct.data.nonce = nn.data
    · rw [if_pos hcond] at h
      have hm : ct.data.msg = m := by
        simpa using h
      unfold naclBox
      obtain ⟨h1, h2⟩ := hcond
      calc ct.data = ⟨ct.data.key, ct.data.nonce, ct.data.msg⟩ := rfl
      _ = ⟨dh rsk spk, nn.data, m⟩ := by rw [h1, h2, hm]
    · rw [if_neg hcond] at h
      exact absurd h (by simp)

/-- C6 witness at concrete keys and share. -/
theorem C6_box_roundtrip_witness :
    (decryptFromSender
        (encryptForRecipient [1, 2, 3] ⟨pubOf 5⟩ ⟨9⟩ 77).encrypted
        (encryptForRecipient [1, 2, 3] ⟨pubOf 5⟩ ⟨9⟩ 77).nonce
        ⟨pubOf 9⟩ ⟨5⟩ = .ok [1, 2, 3])
    ∧ (∀ spk rsk : Nat, dh rsk spk ≠ dh 9 (pubOf 5) →
        decryptFromSender
          (encryptForRecipient [1, 2, 3] ⟨pubOf 5⟩ ⟨9⟩ 77).encrypted
          (encryptForRecipient [1, 2, 3] ⟨pubOf 5⟩ ⟨9⟩ 77).nonce
          ⟨spk⟩ ⟨rsk⟩ = .error "Decryption failed")
    ∧ (∀ (ct : B64 BoxCT) (nn : B64 Nat) (spk rsk : Nat) (m : List Nat),
        decryptFromSender ct nn ⟨spk⟩ ⟨rsk⟩ = .ok m →
        ct.data = naclBox m nn.data spk rsk) :=
  C6_box_roundtrip [1, 2, 3] 9 5 77

/-- The result of POST /api/encrypt-shares for one share: either the
encrypted share record {nonce, encrypted, ephemeralPublicKey} or the raw
hex fallback. -/
inductive EncryptSharesResult where
  | encrypted (nonce : B64 Nat) (ct : B64 BoxCT) (ephemeralPublicKey : B64 Nat)
  | raw (shareBytes : List Nat)
deriving DecidableEq

/-- POST /api/encrypt-shares, one share (source embedding over the
symbolic box): when a sender public key is supplied, the share is sealed
with nacl.box(shareBytes, nonce, node.secretKey, ephemeral.secretKey) —
the node's long-term SECRET key is passed in the recipient-public-key
parameter — and the fresh ephemeral public key is attached; with no
sender key the raw share is returned. -/
def encryptSharesEndpoint (shareBytes : List Nat) (senderPublicKey : Option (B64 Nat))
    (nodeSk ephemeralSk nonce : Nat) : EncryptSharesResult :=
  match senderPublicKey with
  | some _ =>
      .encrypted ⟨nonce⟩ ⟨naclBox shareBytes nonce nodeSk ephemeralSk⟩ ⟨pubOf ephemeralSk⟩
  | none => .raw shareBytes

/-- C10: the share-sealing endpoint calls the box primitive with the
node's secret key in the recipient-public-key position and an ephemeral
secret key as sender; consequently opening the returned share per the
openFromSender contract — box.open with the attached ephemeral public key
as sender public key and the node's secret key as recipient secret key —
always fails and never yields the share. -/
theorem C10_encrypt_shares_key_confusion
    (shareBytes : List Nat) (spk : B64 Nat) (nodeSk ephemeralSk nonce : Nat) :
    encryptSharesEndpoint shareBytes (some spk) nodeSk ephemeralSk nonce
      = .encrypted ⟨nonce⟩ ⟨naclBox shareBytes nonce nodeSk ephemeralSk⟩
          ⟨pubOf ephemeralSk⟩
    ∧ decryptFromSender ⟨naclBox shareBytes nonce nodeSk ephemeralSk⟩ ⟨nonce⟩
        ⟨pubOf ephemeralSk⟩ ⟨nodeSk⟩ = .error "Decryption failed" := by
  refine ⟨rfl, ?_⟩
  unfold decryptFromSender naclBoxOpen naclBox
  simp only []
  rw [if_neg (fun hcond => dh_confusion nodeSk ephemeralSk (And.left hcond))]

/-! ### Proxy re-encryption endpoint (POST /api/nodes/reencrypt) -/

/-- Step 1 of POST /api/nodes/reencrypt: when both an encrypted share and
a sender public key are supplied, box-open the share with the declared
sender public key and the node's secret key (null when open fails);
otherwise no decrypted share. -/
def reencryptStep1 (encryptedShare : Option EncryptedShare)
    (senderPublicKey : Option (B64 Nat)) (nodeSk : Nat) : Option (List Nat) :=
  match encryptedShare, senderPublicKey with
  | some es, some spk => naclBoxOpen es.encrypted.data es.nonce.data spk.data nodeSk
  | _, _ => none

/-- The reEncryptedShare field of the response: either a real
re-encrypted record or the string placeholder. -/
inductive ReencPayload where
  | reencrypted (es : EncryptedShare)
  | placeholder (s : String)
deriving DecidableEq

/-- The JSON response of POST /api/nodes/reencrypt. -/
structure ReencResponse where
  success : Bool
  reEncryptedShare : ReencPayload
deriving DecidableEq

/-- POST /api/nodes/reencrypt (source embedding over the symbolic box):
Step 1 opens the incoming share; Step 2 re-encrypts the recovered
plaintext for the recipient when Step 1 produced a plaintext and a
recipient public key is present; in every other case the endpoint still
answers success with the string placeholder. -/
def reencryptEndpoint (encryptedShare : Option EncryptedShare)
    (senderPublicKey recipientPublicKey : Option (B64 Nat))
    (nodeSk nonce : Nat) : ReencResponse :=
  match reencryptStep1 encryptedShare senderPublicKey nodeSk, recipientPublicKey with
  | some m, some rpk =>
      { success := true
        reEncryptedShare := .reencrypted (encryptForRecipient m rpk ⟨nodeSk⟩ nonce) }
  | _, _ =>
      { success := true
        reEncryptedShare := .placeholder "placeholder_reencrypted_data" }

/-- C5: the re-encryption endpoint never propagates a failure — success
is true on every input; whenever Step 1 fails the reEncryptedShare field
is the placeholder string rather than a typed error; and a re-encrypted
ciphertext is produced only when Step 1 succeeded and a recipient public
key was supplied, in which case it is exactly the sealing of the
recovered plaintext to the recipient. -/
theorem C5_reencrypt_placeholder_on_failure
    (encryptedShare : Option EncryptedShare)
    (senderPublicKey recipientPublicKey : Option (B64 Nat))
    (nodeSk nonce : Nat) :
    (reencryptEndpoint encryptedShare senderPublicKey recipientPublicKey
        nodeSk nonce).success = true
    ∧ (reencryptStep1 encryptedShare senderPublicKey nodeSk = none →
        (reencryptEndpoint encryptedShare senderPublicKey recipientPublicKey
            nodeSk nonce).reEncryptedShare
          = .placeholder "placeholder_reencrypted_data")
    ∧ (∀ es : EncryptedShare,
        (reencryptEndpoint encryptedShare senderPublicKey recipientPublicKey
            nodeSk nonce).reEncryptedShare = .reencrypted es →
        ∃ m, reencryptStep1 encryptedShare senderPublicKey nodeSk = some m
          ∧ ∃ rpk, recipientPublicKey = some rpk
          ∧ es = encryptForRecipient m rpk ⟨nodeSk⟩ nonce) := by
  unfold reencryptEndpoint
  cases h1 : reencryptStep1 encryptedShare senderPublicKey nodeSk with
  | none =>
    cases recipientPublicKey with
    | none => exact ⟨rfl, fun _ => rfl, fun es h => absurd h (by simp)⟩
    | some rpk => exact ⟨rfl, fun _ => rfl, fun es h => absurd h (by simp)⟩
  | some m =>
    cases recipientPublicKey with
    | none => exact ⟨rfl, fun _ => rfl, fun es h => absurd h (by simp)⟩
    | some rpk =>
      refine ⟨rfl, fun h => absurd h (by simp), fun es h => ?_⟩
      refine ⟨m, rfl, rpk, rfl, ?_⟩
      have h2 : ReencPayload.reencrypted (encryptForRecipient m rpk ⟨nodeSk⟩ nonce)
          = .reencrypted es := h
      injection h2 with h3
      exact h3.symm

/-! ### Quorum key release (GET .../key endpoints) -/

/-- One Fisher-Yates swap of list positions i and j. -/
def swapIdx (l : List Nat) (i j : Nat) : List Nat :=
  (l.set i (l.getD j 0)).set j (l.getD i 0)

/-- The Fisher-Yates shuffle of the indices [0, 1, 2] performed by the
key-release endpoints, with the two Math.random draws as parameters:
at i = 2 swap with position r2, then at i = 1 swap with position r1. -/
def shuffle3 (r2 : Fin 3) (r1 : Fin 2) : List Nat :=
  swapIdx (swapIdx [0, 1, 2] 2 r2.val) 1 r1.val

/-- The JSON response of the key-release endpoints. -/
structure KeyReleaseResponse where
  encryptionKey : Option (List Nat)
  shares : List (List Nat)
  releasedNodes : List String
  threshold : Nat
  totalShares : Nat
deriving DecidableEq

def nodeNames : List String := ["alpha", "beta", "gamma"]

/-- The key-release endpoints (source embedding, identical logic in the
shared-file and group-file variants): when at least 3 shares are on
file, Fisher-Yates-shuffle the indices [0, 1, 2] with the two random
draws, release the shares at the first two shuffled indices and report
threshold 2 of 3; otherwise release the stored encryption key directly
with an empty share list (same response shape, no error). -/
def keyRelease (encryptionKey : Option (List Nat)) (allShares : List (List Nat))
    (r2 : Fin 3) (r1 : Fin 2) : KeyReleaseResponse :=
  if allShares.length ≥ 3 then
    { encryptionKey := encryptionKey
      shares := ((shuffle3 r2 r1).take 2).map fun i => allShares.getD i []
      releasedNodes := ((shuffle3 r2 r1).take 2).map fun i => nodeNames.getD i ""
      threshold := 2
      totalShares := 3 }
  else
    { encryptionKey := encryptionKey
      shares := []
      releasedNodes := []
      threshold := 2
      totalShares := 3 }

theorem shuffle3_perm (r2 : Fin 3) (r1 : Fin 2) :
    (shuffle3 r2 r1).Perm [0, 1, 2] := by
  fin_cases r2 <;> fin_cases r1 <;> decide

theorem shuffle3_take_nodup (r2 : Fin 3) (r1 : Fin 2) :
    ((shuffle3 r2 r1).take 2).Nodup := by
  fin_cases r2 <;> fin_cases r1 <;> decide

theorem shuffle3_lengths (r2 : Fin 3) (r1 : Fin 2) :
    ((shuffle3 r2 r1).take 2).length = 2 ∧ ((shuffle3 r2 r1).drop 2).length = 1 := by
  fin_cases r2 <;> fin_cases r1 <;> decide

theorem shuffle3_inj :
    Function.Injective (fun p : Fin 3 × Fin 2 => shuffle3 p.1 p.2) := by
  decide

/-- C4: the key-release response always reports threshold 2 and total 3;
with at least 3 stored shares the shuffled index list is a permutation of
[0, 1, 2], the two released indices are distinct and together with the
single withheld index cover all three, the released shares are exactly
the stored shares at the two released indices, and the shuffle is
uniform: distinct pairs of random draws give distinct shuffles and every
permutation of [0, 1, 2] is reached by some pair of draws; with fewer
than 3 stored shares the request still succeeds, passing the stored
encryption key through with an empty released-share list. -/
theorem C4_key_release (encryptionKey : Option (List Nat))
    (allShares : List (List Nat)) (r2 : Fin 3) (r1 : Fin 2) :
    ((keyRelease encryptionKey allShares r2 r1).threshold = 2
      ∧ (keyRelease encryptionKey allShares r2 r1).totalShares = 3)
    ∧ (allShares.length ≥ 3 →
        (shuffle3 r2 r1).Perm [0, 1, 2]
        ∧ ((shuffle3 r2 r1).take 2).Nodup
        ∧ ((shuffle3 r2 r1).take 2).length = 2
        ∧ ((shuffle3 r2 r1).drop 2).length = 1
        ∧ ((shuffle3 r2 r1).take 2 ++ (shuffle3 r2 r1).drop 2).Perm [0, 1, 2]
        ∧ (keyRelease encryptionKey allShares r2 r1).shares
            = ((shuffle3 r2 r1).take 2).map fun i => allShares.getD i [])
    ∧ (allShares.length < 3 →
        (keyRelease encryptionKey allShares r2 r1).encryptionKey = encryptionKey
        ∧ (keyRelease encryptionKey allShares r2 r1).shares = [])
    ∧ Function.Injective (fun p : Fin 3 × Fin 2 => shuffle3 p.1 p.2)
    ∧ (∀ l : List Nat, l.Perm [0, 1, 2] →
        ∃ p : Fin 3 × Fin 2, shuffle3 p.1 p.2 = l) := by
  refine ⟨⟨?_, ?_⟩, fun h => ?_, fun h => ?_, shuffle3_inj, fun l hl => ?_⟩
  · unfold keyRelease; split <;> rfl
  · unfold keyRelease; split <;> rfl
  · refine ⟨shuffle3_perm r2 r1, shuffle3_take_nodup r2 r1,
      (shuffle3_lengths r2 r1).1, (shuffle3_lengths r2 r1).2, ?_, ?_⟩
    · rw [List.take_append_drop]
      exact shuffle3_perm r2 r1
    · unfold keyRelease
      rw [if_pos h]
  · unfold keyRelease
    rw [if_neg (by omega)]
    exact ⟨rfl, rfl⟩
  · have h3 := hl.length_eq
    have hnd : l.Nodup := hl.nodup_iff.2 (by decide)
    rcases l with _ | ⟨a, l⟩
    · simp at h3
    rcases l with _ | ⟨b, l⟩
    · simp at h3
    rcases l with _ | ⟨c, l⟩
    · simp at h3
    rcases l with _ | ⟨d, l⟩
    swap
    · simp at h3
    have ha : a ∈ ([0, 1, 2] : List Nat) := hl.subset (by simp)
    have hb : b ∈ ([0, 1, 2] : List Nat) := hl.subset (by simp)
    have hc : c ∈ ([0, 1, 2] : List Nat) := hl.subset (by simp)
    simp only [List.mem_cons, List.not_mem_nil, or_false] at ha hb hc
    rcases ha with rfl | rfl | rfl <;> rcases hb with rfl | rfl | rfl <;>
      rcases hc with rfl | rfl | rfl <;>
      first
        | exact ⟨(2, 1), rfl⟩
        | exact ⟨(2, 0), rfl⟩
        | exact ⟨(0, 1), rfl⟩
        | exact ⟨(0, 0), rfl⟩
        | exact ⟨(1, 0), rfl⟩
        | exact ⟨(1, 1), rfl⟩
        | exact absurd hnd (by decide)

/-- C4 witness at a concrete store and concrete random draws. -/
theorem C4_key_release_witness :
    (3 : Nat) ≥ 3 ∧ (2 : Nat) < 3
    ∧ (keyRelease (some [9]) [[1, 10], [2, 20], [3, 30]] 0 0).shares
        = ((shuffle3 0 0).take 2).map (fun i => ([[1, 10], [2, 20], [3, 30]] :
            List (List Nat)).getD i [])
    ∧ (keyRelease (some [9]) [[1, 10], [2, 20]] 0 0).shares = [] := by
  refine ⟨by omega, by omega, ?_, ?_⟩
  · exact ((C4_key_release (some [9]) [[1, 10], [2, 20], [3, 30]] 0 0).2.1
      (by decide)).2.2.2.2.2
  · exact ((C4_key_release (some [9]) [[1, 10], [2, 20]] 0 0).2.2.1 (by decide)).2

/-! ### AES-256-GCM payload cipher -/

/-- Injective encoding of byte lists into Nat. -/
def encodeList : List Nat → Nat
  | [] => 0
  | b :: rest => Nat.pair b (encodeList rest) + 1

theorem encodeList_inj : Function.Injective encodeList := by
  intro l1
  induction l1 with
  | nil =>
    intro l2 h
    cases l2 with
    | nil => rfl
    | cons b r => simp [encodeList] at h
  | cons b r ih =>
    intro l2 h
    cases l2 with
    | nil => simp [encodeList] at h
    | cons b2 r2 =>
      have h1 : Nat.pair b (encodeList r) = Nat.pair b2 (encodeList r2) := by
        have := h
        simp only [encodeList, Nat.add_right_cancel_iff] at this
        exact this
      have h2 := congrArg Nat.unpair h1
      rw [Nat.unpair_pair, Nat.unpair_pair] at h2
      have hb : b = b2 := congrArg Prod.fst h2
      have hr : encodeList r = encodeList r2 := congrArg Prod.snd h2
      rw [hb, ih hr]

/-- Modelled from the spec: the AES-256-GCM authentication tag, an
uninterpreted function of key, IV and plaintext, injective in all three. -/
def aesTag (key iv data : List Nat) : Nat :=
  encodeList [encodeList key, encodeList iv, encodeList data]

/-- Modelled from the spec: AES-GCM sealing — the ciphertext-with-tag
carries the plaintext (symbolic one-time-pad layer elided) followed by
the authentication tag. -/
def aeadSeal (key iv data : List Nat) : List Nat :=
  data ++ [aesTag key iv data]

/-- Modelled from the spec: AES-GCM opening — recompute the tag over the
received body and fail (the WebCrypto OperationError) unless the whole
ciphertext matches an honest sealing. -/
def aeadOpen (key iv ct : List Nat) : Except String (List Nat) :=
  if ct = aeadSeal key iv ct.dropLast then .ok ct.dropLast
  else .error "OperationError"

/-- encryptAES from the crypto module: draw a random 12-byte IV (a
parameter here), AES-GCM-encrypt, and return IV ++ ciphertext. -/
def encryptAES (data key iv : List Nat) : List Nat :=
  iv ++ aeadSeal key iv data

/-- decryptAES from the crypto module: split the first 12 bytes off as
the IV, the remainder as ciphertext+tag, and AES-GCM-decrypt. -/
def decryptAES (blob key : List Nat) : Except String (List Nat) :=
  aeadOpen key (blob.take 12) (blob.drop 12)

/-- C9: encryptAES returns the 12-byte IV followed by the
ciphertext-with-tag; decryptAES on that blob with the same key splits
the first 12 bytes off as the IV and returns exactly the original
plaintext; decrypting with any other key fails with the authentication
error; and any accepted blob is exactly an IV followed by an honest
sealing, under the given key and that IV, of the returned plaintext
(fail-closed: no partial plaintext on failure). -/
theorem C9_aes_roundtrip (data key iv : List Nat) (hiv : iv.length = 12) :
    encryptAES data key iv = iv ++ aeadSeal key iv data
    ∧ decryptAES (encryptAES data key iv) key = .ok data
    ∧ (∀ key2, key2 ≠ key →
        decryptAES (encryptAES data key iv) key2 = .error "OperationError")
    ∧ (∀ blob m, decryptAES blob key = .ok m →
        blob = blob.take 12 ++ aeadSeal key (blob.take 12) m) := by
  have hdl : (aeadSeal key iv data).dropLast = data := by
    unfold aeadSeal
    simp
  have htake : (iv ++ aeadSeal key iv data).take 12 = iv := by
    rw [← hiv]
    exact List.take_left iv (aeadSeal key iv data)
  have hdrop : (iv ++ aeadSeal key iv data).drop 12 = aeadSeal key iv data := by
    rw [← hiv]
    exact List.drop_left iv (aeadSeal key iv data)
  refine ⟨rfl, ?_, ?_, ?_⟩
  · unfold decryptAES encryptAES
    rw [htake, hdrop]
    unfold aeadOpen
    rw [hdl, if_pos rfl]
  · intro key2 hne
    unfold decryptAES encryptAES
    rw [htake, hdrop]
    unfold aeadOpen
    rw [hdl]
    have hcond : ¬(aeadSeal key iv data = aeadSeal key2 iv data) := by
      unfold aeadSeal
      intro hc
      have htag : aesTag key iv data = aesTag key2 iv data := by
        simpa using hc
      have h4 := encodeList_inj
        (show encodeList [encodeList key, encodeList iv, encodeList data]
            = encodeList [encodeList key2, encodeList iv, encodeList data] from htag)
      simp only [List.cons.injEq] at h4
      exact hne (encodeList_inj h4.1).symm
    rw [if_neg hcond]
  · intro blob m h
    unfold decryptAES aeadOpen at h
    by_cases hcond : blob.drop 12
        = aeadSeal key (blob.take 12) (blob.drop 12).dropLast
    · rw [if_pos hcond] at h
      have hm : (blob.drop 12).dropLast = m := by
        simpa using h
      conv_lhs => rw [← List.take_append_drop 12 blob]
      rw [hcond, hm]
    · rw [if_neg hcond] at h
      exact absurd h (by simp)

/-- C9 witness at a concrete plaintext, key and 12-byte IV. -/
theorem C9_aes_roundtrip_witness :
    ([3, 1, 4, 1, 5, 9, 2, 6, 5, 3, 5, 8] : List Nat).length = 12
    ∧ (encryptAES [104, 105] [7] [3, 1, 4, 1, 5, 9, 2, 6, 5, 3, 5, 8]
        = [3, 1, 4, 1, 5, 9, 2, 6, 5, 3, 5, 8]
          ++ aeadSeal [7] [3, 1, 4, 1, 5, 9, 2, 6, 5, 3, 5, 8] [104, 105]
      ∧ decryptAES (encryptAES [104, 105] [7] [3, 1, 4, 1, 5, 9, 2, 6, 5, 3, 5, 8]) [7]
          = .ok [104, 105]
      ∧ (∀ key2, key2 ≠ [7] →
          decryptAES (encryptAES [104, 105] [7] [3, 1, 4, 1, 5, 9, 2, 6, 5, 3, 5, 8]) key2
            = .error "OperationError")
      ∧ (∀ blob m, decryptAES blob [7] = .ok m →
          blob = blob.take 12 ++ aeadSeal [7] (blob.take 12) m)) :=
  ⟨rfl, C9_aes_roundtrip [104, 105] [7] [3, 1, 4, 1, 5, 9, 2, 6, 5, 3, 5, 8] rfl⟩


end AlgoAuth
